import Mathlib

/-!
# Othello move-selection engine (`Negascout2.0.cpp`)

A shallow embedding of the class `OthelloBoard` and a verification of its
documented behaviour.

Modelling conventions.

* The C++ `int` is modelled by `Int`.  Where the source can leave the 32-bit
  range (unary minus on window bounds, `alpha + 1`, `depth - 1`, `3 - player`)
  the result is reduced with `wrap32`, the two's-complement wrap-around.
* The grid `int board[6][6]` is modelled by a function from coordinates to
  cell contents; only the 36 cells with both coordinates in `0..5` are cells
  of the C++ array.
* `for` loops become folds over the list of values the loop variable takes,
  in the order the loop takes them; `while` loops and the recursion of the
  search take a bound on the number of iterations and return `none` when the
  bound is exhausted.
* For the safety of the grid accesses, `makeMove` and `flipTiles` are given a
  second time with every read and write of the grid failing outside the
  array (`readCell`, `writeCell`); the two versions are proved equal.
-/

namespace Othello

/-! ## Constants and machine integers -/

/-- Side length of the board, `BOARD_SIZE`. -/
def BOARD_SIZE : Int := 6

/-- Cell content `EMPTY`. -/
def EMPTY : Int := 0

/-- Cell content and player code `BLACK`. -/
def BLACK : Int := 1

/-- Cell content and player code `WHITE`. -/
def WHITE : Int := 2

/-- The value of `numeric_limits<int>::min()` for a 32-bit `int`. -/
def INT_MIN : Int := -2147483648

/-- The value of `numeric_limits<int>::max()` for a 32-bit `int`. -/
def INT_MAX : Int := 2147483647

/-- Two's-complement reduction of an integer to the 32-bit signed range. -/
def wrap32 (x : Int) : Int := (x + 2147483648) % 4294967296 - 2147483648

/-- Unary minus on a 32-bit `int`. -/
def neg32 (x : Int) : Int := wrap32 (-x)

/-- Addition on 32-bit `int`s. -/
def add32 (x y : Int) : Int := wrap32 (x + y)

/-- Subtraction on 32-bit `int`s. -/
def sub32 (x y : Int) : Int := wrap32 (x - y)

/-! ## The board -/

/-- The grid `board[x][y]`. -/
abbrev Board := Int → Int → Int

/-- The assignment `board[x][y] = v`. -/
def setCell (b : Board) (x y v : Int) : Board :=
  fun i j => if i = x ∧ j = y then v else b i j

/-- The values taken by a loop `for (int i = 0; i < BOARD_SIZE; i++)`. -/
def indices : List Int := [0, 1, 2, 3, 4, 5]

/-- The values taken by a loop `for (int d = -1; d <= 1; d++)`. -/
def offsets : List Int := [-1, 0, 1]

/-- The board before the constructor has filled it. -/
def blank : Board := fun _ _ => EMPTY

/-- The element `gameboard[n]` of the description string, given as its list of
characters; one past the end a C++ string reads as the NUL character. -/
def charAt (gameboard : List Char) (n : Int) : Char :=
  gameboard.getD n.toNat (Char.ofNat 0)

/-- The constructor `OthelloBoard(const string& gameboard)`. -/
def OthelloBoard (gameboard : List Char) : Board :=
  indices.foldl (fun b i =>
    indices.foldl (fun b j =>
      let c := charAt gameboard (i * BOARD_SIZE + j)
      if c = 'O' then setCell b i j WHITE
      else if c = 'X' then setCell b i j BLACK
      else setCell b i j EMPTY) b) blank

/-- The coordinate check `isValidMove(x, y)`. -/
def isValidMove (x y : Int) : Bool :=
  decide (x ≥ 0) && decide (x < BOARD_SIZE) && decide (y ≥ 0) && decide (y < BOARD_SIZE)

/-- The emptiness test `isEmpty(x, y)`. -/
def isEmpty (b : Board) (x y : Int) : Bool :=
  decide (b x y = EMPTY)

/-- The neighbour scan of `makeMove`: the value of `hasNeighbor` after the two
nested loops (each `break` ends the scan at the first occupied neighbour). -/
def hasNeighbor (b : Board) (x y : Int) : Bool :=
  offsets.any fun dx =>
    offsets.any fun dy =>
      if dx = 0 ∧ dy = 0 then false
      else isValidMove (x + dx) (y + dy) && !isEmpty b (x + dx) (y + dy)

/-- The method `makeMove(x, y, player)`: the returned flag and the board after
the call. -/
def makeMove (b : Board) (x y player : Int) : Bool × Board :=
  if !isEmpty b x y then (false, b)
  else if !hasNeighbor b x y then (false, b)
  else (true, setCell b x y player)

/-- The walking loop of `flipTiles`: from `(nx, ny)` step by `(dx, dy)` while
the cell is on the board, not empty and not the player's; the result is the
cell at which the loop stops.  The first argument bounds the number of times
the loop condition is tested. -/
def walk (b : Board) (player dx dy : Int) : Nat → Int → Int → Option (Int × Int)
  | 0, _, _ => none
  | n + 1, nx, ny =>
    if isValidMove nx ny && decide (b nx ny ≠ EMPTY) && decide (b nx ny ≠ player) then
      walk b player dx dy n (nx + dx) (ny + dy)
    else some (nx, ny)

/-- The rewriting loop of `flipTiles`: from `(tx, ty)` write `player` and step
by `(dx, dy)` until `(nx, ny)` is reached.  The first argument bounds the
number of times the loop condition is tested. -/
def rewriteRun (player dx dy nx ny : Int) : Nat → Board → Int → Int → Option Board
  | 0, _, _, _ => none
  | n + 1, b, tx, ty =>
    if tx ≠ nx ∨ ty ≠ ny then
      rewriteRun player dx dy nx ny n (setCell b tx ty player) (tx + dx) (ty + dy)
    else some b

/-- The number of condition tests allowed to each `while` loop of `flipTiles`:
a line holds at most `BOARD_SIZE` cells of the board, so the loop condition is
tested at most `BOARD_SIZE + 1` times. -/
def lineFuel : Nat := 7

/-- The body of the two nested loops of `flipTiles` for one direction
`(dx, dy)` other than `(0, 0)`. -/
def flipDir (b : Board) (x y player dx dy : Int) : Option Board :=
  match walk b player dx dy lineFuel (x + dx) (y + dy) with
  | none => none
  | some (nx, ny) =>
    if isValidMove nx ny && decide (b nx ny = player) then
      rewriteRun player dx dy nx ny lineFuel b (x + dx) (y + dy)
    else some b

/-- The method `flipTiles(x, y, player)`: the board after the call. -/
def flipTiles (b : Board) (x y player : Int) : Option Board :=
  offsets.foldlM (fun b dx =>
    offsets.foldlM (fun b dy =>
      if dx = 0 ∧ dy = 0 then some b else flipDir b x y player dx dy) b) b

/-- The accessor `getPiece(x, y)`. -/
def getPiece (b : Board) (x y : Int) : Int := b x y

/-- The method `evaluate(player)`. -/
def evaluate (b : Board) (player : Int) : Int :=
  indices.foldl (fun score i =>
    indices.foldl (fun score j =>
      if b i j = player then score + 1
      else if b i j = sub32 3 player then score - 1
      else score) score) 0

/-- The method `getValidMoves(player)`: every empty cell on which `makeMove`
succeeds on a copy of the board, appended in scan order. -/
def getValidMoves (b : Board) (player : Int) : List (Int × Int) :=
  indices.foldl (fun validMoves i =>
    indices.foldl (fun validMoves j =>
      if isEmpty b i j then
        if isValidMove i j && (makeMove b i j player).1 then validMoves ++ [(i, j)]
        else validMoves
      else validMoves) validMoves) []

/-- The method `isGameOver()`. -/
def isGameOver (b : Board) : Bool :=
  (getValidMoves b BLACK).isEmpty && (getValidMoves b WHITE).isEmpty

/-- The child position built in the loops of `negaScout` and `findBestMove`:
a copy of the board on which `makeMove` and then `flipTiles` are called. -/
def childBoard (b : Board) (move : Int × Int) (player : Int) : Option Board :=
  flipTiles (makeMove b move.1 move.2 player).2 move.1 move.2 player

/-- One iteration of the `for` loop of `negaScout` up to the cutoff test: the
value of `alpha` after the body has processed `move`.  `search move lo hi`
stands for `childBoard.negaScout(depth - 1, lo, hi, 3 - player)` on the child
position of `move`. -/
def scoutStep (search : Int × Int → Int → Int → Option Int) (depth beta : Int)
    (move : Int × Int) (alpha b : Int) : Option Int :=
  match search move (neg32 b) (neg32 alpha) with
  | none => none
  | some r =>
    let score := neg32 r
    if score > alpha then
      if b = beta ∨ depth ≤ 2 then some score
      else
        match search move (neg32 beta) (neg32 score) with
        | none => none
        | some r2 => some (neg32 r2)
    else some alpha

/-- The `for` loop of `negaScout` over the remaining moves, from the current
values of `alpha` and `b`. -/
def scoutLoop (search : Int × Int → Int → Int → Option Int) (depth beta : Int) :
    List (Int × Int) → Int → Int → Option Int
  | [], alpha, _ => some alpha
  | move :: rest, alpha, b =>
    match scoutStep search depth beta move alpha b with
    | none => none
    | some alpha1 =>
      if alpha1 ≥ beta then some alpha1
      else scoutLoop search depth beta rest alpha1 (add32 alpha1 1)

/-- The method `negaScout(depth, alpha, beta, player)`.  The first argument
bounds the nesting of the recursive calls. -/
def negaScout : Nat → Board → Int → Int → Int → Int → Option Int
  | 0, _, _, _, _, _ => none
  | fuel + 1, b, depth, alpha, beta, player =>
    if depth = 0 ∨ isGameOver b = true then some (evaluate b player)
    else
      let validMoves := getValidMoves b player
      if validMoves.isEmpty then
        negaScout fuel b (sub32 depth 1) alpha beta (sub32 3 player)
      else
        scoutLoop
          (fun move lo hi =>
            match childBoard b move player with
            | none => none
            | some child => negaScout fuel child (sub32 depth 1) lo hi (sub32 3 player))
          depth beta validMoves alpha beta

/-- The `for` loop of `findBestMove`: the values of `bestScore` and `bestMove`
after the remaining moves.  `search move` stands for the call
`childBoard.negaScout(depth - 1, INT_MIN, INT_MAX, 3 - player)` on the child
position of `move`. -/
def bestLoop (search : Int × Int → Option Int) :
    List (Int × Int) → Int → Int × Int → Option (Int × (Int × Int))
  | [], bestScore, bestMove => some (bestScore, bestMove)
  | move :: rest, bestScore, bestMove =>
    match search move with
    | none => none
    | some r =>
      let score := neg32 r
      if score > bestScore then bestLoop search rest score move
      else bestLoop search rest bestScore bestMove

/-- The final values of `bestScore` and `bestMove` in `findBestMove`; the pair
`bestMove` is value-initialised to `(0, 0)`. -/
def findBestMoveState (fuel : Nat) (b : Board) (player depth : Int) :
    Option (Int × (Int × Int)) :=
  bestLoop
    (fun move =>
      match childBoard b move player with
      | none => none
      | some child => negaScout fuel child (sub32 depth 1) INT_MIN INT_MAX (sub32 3 player))
    (getValidMoves b player) INT_MIN (0, 0)

/-- The method `findBestMove(player, depth)`. -/
def findBestMove (fuel : Nat) (b : Board) (player depth : Int) : Option (Int × Int) :=
  (findBestMoveState fuel b player depth).map Prod.snd

/-! ## Reference definitions taken from the specification -/

/-- The opponent relation of the specification on player codes. -/
def opponent (player : Int) : Int := 3 - player

/-- The greatest element of a non-empty list of scores. -/
def maxScore : List Int → Int
  | [] => 0
  | s :: rest => rest.foldl max s

/-- Plain negamax over the same rules, the reference of the specification:
the static evaluation at depth 0 or when the game is over, otherwise the
maximum over the legal moves of minus the value of the child one ply
shallower for the opponent. -/
def negamax : Nat → Board → Int → Option Int
  | 0, b, player => some (evaluate b player)
  | d + 1, b, player =>
    if isGameOver b = true then some (evaluate b player)
    else
      ((getValidMoves b player).mapM fun move =>
        match childBoard b move player with
        | none => none
        | some child => (negamax d child (opponent player)).map fun v => -v).map maxScore

/-! ## Predicates and positions used in the statements -/

/-- The row-major strict order on cells: earlier row, or same row and earlier
column. -/
def rowMajorLt (c d : Int × Int) : Prop := c.1 < d.1 ∨ (c.1 = d.1 ∧ c.2 < d.2)

/-- All 36 cells of the board in scan order. -/
def allCells : List (Int × Int) :=
  indices.flatMap fun i => indices.map fun j => (i, j)

/-- The number of cells of the board that hold `v`. -/
def countCells (b : Board) (v : Int) : Nat :=
  (allCells.filter fun c => decide (b c.1 c.2 = v)).length

/-- The eight unit directions: each component is -1, 0 or 1 and not both are 0. -/
def IsDirection (dx dy : Int) : Prop :=
  (dx = -1 ∨ dx = 0 ∨ dx = 1) ∧ (dy = -1 ∨ dy = 0 ∨ dy = 1) ∧ ¬(dx = 0 ∧ dy = 0)

/-- The eight unit directions in the order in which the nested loops of
`flipTiles` visit them. -/
def directions : List (Int × Int) :=
  [(-1, -1), (-1, 0), (-1, 1), (0, -1), (0, 1), (1, -1), (1, 0), (1, 1)]

/-- The loop body of `flipTiles` run over the directions of `ds`, in the order
of `ds`. -/
def flipDirs (b : Board) (x y player : Int) (ds : List (Int × Int)) : Option Board :=
  ds.foldlM (fun b d => flipDir b x y player d.1 d.2) b

/-- The condition of the walking loop of `flipTiles` at the cell `(nx, ny)`. -/
def continues (b : Board) (player nx ny : Int) : Bool :=
  isValidMove nx ny && decide (b nx ny ≠ EMPTY) && decide (b nx ny ≠ player)

/-- The cell `(i, j)` lies on a run of cells that the walking loop passes from
`(x, y)` in direction `(dx, dy)` and that ends at a cell of the board holding
`player`. -/
def CapturedDir (b : Board) (x y player dx dy i j : Int) : Prop :=
  ∃ k t : Nat, 1 ≤ t ∧ t ≤ k ∧ i = x + t * dx ∧ j = y + t * dy ∧
    (∀ s : Nat, 1 ≤ s → s ≤ k → continues b player (x + s * dx) (y + s * dy) = true) ∧
    isValidMove (x + (k + 1 : Nat) * dx) (y + (k + 1 : Nat) * dy) = true ∧
    b (x + (k + 1 : Nat) * dx) (y + (k + 1 : Nat) * dy) = player

/-- The capture rule of the specification: for one of the eight unit
directions and some `k ≥ 1`, the cell `(i, j)` is one of the `k` cells that
follow `(x, y)` in that direction, all `k` of them are on the board and hold
the opponent, and the next cell is on the board and holds `player`. -/
def Captured (b : Board) (x y player i j : Int) : Prop :=
  ∃ dx dy : Int, IsDirection dx dy ∧ ∃ k : Nat, 1 ≤ k ∧
    (∃ t : Nat, 1 ≤ t ∧ t ≤ k ∧ i = x + t * dx ∧ j = y + t * dy) ∧
    (∀ s : Nat, 1 ≤ s → s ≤ k →
      isValidMove (x + s * dx) (y + s * dy) = true ∧
      b (x + s * dx) (y + s * dy) = opponent player) ∧
    isValidMove (x + (k + 1 : Nat) * dx) (y + (k + 1 : Nat) * dy) = true ∧
    b (x + (k + 1 : Nat) * dx) (y + (k + 1 : Nat) * dy) = player

/-- Every cell of the board holds one of the three cell states. -/
def WellFormed (b : Board) : Prop :=
  ∀ i j : Int, isValidMove i j = true → b i j = EMPTY ∨ b i j = BLACK ∨ b i j = WHITE

/-- Scenario S2 of the specification after the placement at `(3, 4)`: White at
`(3, 1)` and `(3, 4)`, Black at `(3, 2)` and `(3, 3)`, every other cell
empty. -/
def scenarioS2 : Board := OthelloBoard "+++++++++++++++++++OXXO+++++++++++++".toList

/-- Position `i` holds the greatest score of the list and no earlier position
holds a score as great: the first-seen maximum. -/
def IsFirstMax (scores : List Int) (i : Nat) : Prop :=
  ∃ s : Int, scores[i]? = some s ∧
    (∀ (j : Nat) (t : Int), scores[j]? = some t → t ≤ s) ∧
    (∀ (j : Nat) (t : Int), j < i → scores[j]? = some t → t < s)

/-- A position with two empty cells, `(0, 0)` and `(0, 1)`, one white stone at
`(1, 2)` and black stones everywhere else. -/
def twoEmpty : Board := OthelloBoard "++XXXXXXOXXXXXXXXXXXXXXXXXXXXXXXXXXX".toList

/-- A position with four empty cells, `(0, 4)`, `(0, 5)`, `(1, 2)` and
`(1, 5)`, white stones at `(0, 1)` and `(1, 1)` and black stones everywhere
else. -/
def fourEmpty : Board := OthelloBoard "XOXX++XO+XX+XXXXXXXXXXXXXXXXXXXXXXXX".toList

/-- Scenario S6 of the specification: Black at `(2, 2)`, White at `(3, 3)`,
every other cell empty. -/
def scenarioS6 : Board := OthelloBoard "++++++++++++++X++++++O++++++++++++++".toList

/-- Scenario S3 of the specification: Black at `(0, 0)`, every other cell
empty. -/
def scenarioS3 : Board := OthelloBoard "X+++++++++++++++++++++++++++++++++++".toList

/-- Scenario S4 of the specification: every cell holds a black stone. -/
def scenarioS4 : Board := OthelloBoard "XXXXXXXXXXXXXXXXXXXXXXXXXXXXXXXXXXXX".toList

/-- The number of cells of the board on which `after` differs from `before`. -/
def changedCells (before after : Board) : Nat :=
  (allCells.filter fun c => decide (after c.1 c.2 ≠ before c.1 c.2)).length

/-! ## Bounds-checked grid access -/

/-- A read of `board[x][y]` that fails outside the array. -/
def readCell (b : Board) (x y : Int) : Option Int :=
  if isValidMove x y = true then some (b x y) else none

/-- A write to `board[x][y]` that fails outside the array. -/
def writeCell (b : Board) (x y v : Int) : Option Board :=
  if isValidMove x y = true then some (setCell b x y v) else none

/-- A loop that stops with `true` at the first element on which the body sets
the flag, and fails when the body fails. -/
def anyChecked {α : Type} (f : α → Option Bool) : List α → Option Bool
  | [] => some false
  | a :: l =>
    match f a with
    | none => none
    | some true => some true
    | some false => anyChecked f l

/-- The neighbour scan of `makeMove` with every grid access checked: the test
`isValidMove(nx, ny) && !isEmpty(nx, ny)` reads the grid only when the first
operand holds. -/
def hasNeighborChecked (b : Board) (x y : Int) : Option Bool :=
  anyChecked (fun dx =>
    anyChecked (fun dy =>
      if dx = 0 ∧ dy = 0 then some false
      else if isValidMove (x + dx) (y + dy) = true then
        (readCell b (x + dx) (y + dy)).map fun v => decide (v ≠ EMPTY)
      else some false) offsets) offsets

/-- The method `makeMove(x, y, player)` with every grid access checked. -/
def makeMoveChecked (b : Board) (x y player : Int) : Option (Bool × Board) :=
  match readCell b x y with
  | none => none
  | some v =>
    if v ≠ EMPTY then some (false, b)
    else
      match hasNeighborChecked b x y with
      | none => none
      | some false => some (false, b)
      | some true => (writeCell b x y player).map fun b1 => (true, b1)

/-- The walking loop of `flipTiles` with every grid access checked. -/
def walkChecked (b : Board) (player dx dy : Int) : Nat → Int → Int → Option (Int × Int)
  | 0, _, _ => none
  | n + 1, nx, ny =>
    if isValidMove nx ny = true then
      match readCell b nx ny with
      | none => none
      | some v =>
        if v ≠ EMPTY ∧ v ≠ player then walkChecked b player dx dy n (nx + dx) (ny + dy)
        else some (nx, ny)
    else some (nx, ny)

/-- The rewriting loop of `flipTiles` with every grid access checked. -/
def rewriteRunChecked (player dx dy nx ny : Int) : Nat → Board → Int → Int → Option Board
  | 0, _, _, _ => none
  | n + 1, b, tx, ty =>
    if tx ≠ nx ∨ ty ≠ ny then
      match writeCell b tx ty player with
      | none => none
      | some b1 => rewriteRunChecked player dx dy nx ny n b1 (tx + dx) (ty + dy)
    else some b

/-- The body of the loops of `flipTiles` for one direction with every grid
access checked. -/
def flipDirChecked (b : Board) (x y player dx dy : Int) : Option Board :=
  match walkChecked b player dx dy lineFuel (x + dx) (y + dy) with
  | none => none
  | some (nx, ny) =>
    if isValidMove nx ny = true then
      match readCell b nx ny with
      | none => none
      | some v =>
        if v = player then rewriteRunChecked player dx dy nx ny lineFuel b (x + dx) (y + dy)
        else some b
    else some b

/-- The method `flipTiles(x, y, player)` with every grid access checked. -/
def flipTilesChecked (b : Board) (x y player : Int) : Option Board :=
  offsets.foldlM (fun b dx =>
    offsets.foldlM (fun b dy =>
      if dx = 0 ∧ dy = 0 then some b else flipDirChecked b x y player dx dy) b) b

/-! ## Placement -/

theorem isValidMove_iff (x y : Int) :
    isValidMove x y = true ↔ 0 ≤ x ∧ x < 6 ∧ 0 ≤ y ∧ y < 6 := by
  simp [isValidMove, BOARD_SIZE, and_assoc]

theorem isEmpty_iff (b : Board) (x y : Int) : isEmpty b x y = true ↔ b x y = EMPTY := by
  simp [isEmpty]

theorem hasNeighbor_iff (b : Board) (x y : Int) :
    hasNeighbor b x y = true ↔
      ∃ i j : Int, max |i - x| |j - y| = 1 ∧ isValidMove i j = true ∧ b i j ≠ EMPTY := by
  constructor
  · intro h
    simp only [hasNeighbor, offsets, List.any_cons, List.any_nil, Bool.or_false,
      Bool.or_eq_true] at h
    rcases h with h | h | h <;> rcases h with h | h | h <;>
      simp [isEmpty] at h <;>
      exact ⟨_, _, by simp, h.1, h.2⟩
  · rintro ⟨i, j, hd, hv, he⟩
    obtain ⟨dx, rfl⟩ : ∃ dx, i = x + dx := ⟨i - x, by ring⟩
    obtain ⟨dy, rfl⟩ : ∃ dy, j = y + dy := ⟨j - y, by ring⟩
    simp only [add_sub_cancel_left] at hd
    have hx : dx = -1 ∨ dx = 0 ∨ dx = 1 := by
      have := le_max_left |dx| |dy|
      rw [hd, abs_le] at this
      omega
    have hy : dy = -1 ∨ dy = 0 ∨ dy = 1 := by
      have := le_max_right |dx| |dy|
      rw [hd, abs_le] at this
      omega
    simp only [hasNeighbor, offsets, List.any_cons, List.any_nil, Bool.or_false,
      Bool.or_eq_true]
    rcases hx with rfl | rfl | rfl <;> rcases hy with rfl | rfl | rfl <;>
      simp [isEmpty] at hd hv he ⊢ <;> simp [hv, he]

theorem makeMove_fst (b : Board) (x y player : Int) :
    (makeMove b x y player).1 = (isEmpty b x y && hasNeighbor b x y) := by
  unfold makeMove
  cases isEmpty b x y <;> cases hasNeighbor b x y <;> simp

theorem makeMove_snd (b : Board) (x y player : Int) :
    (makeMove b x y player).2 =
      if (makeMove b x y player).1 = true then setCell b x y player else b := by
  unfold makeMove
  cases isEmpty b x y <;> cases hasNeighbor b x y <;> simp

/-- Claim C1. For every board, in-bounds cell `(x, y)` and player, `makeMove`
returns true exactly when the cell is empty and some cell at Chebyshev
distance 1 from it is on the board and not empty. -/
theorem makeMove_true_iff (b : Board) (x y player : Int) (_hin : isValidMove x y = true) :
    (makeMove b x y player).1 = true ↔
      b x y = EMPTY ∧
        ∃ i j : Int, max |i - x| |j - y| = 1 ∧ isValidMove i j = true ∧ b i j ≠ EMPTY := by
  rw [← hasNeighbor_iff, ← isEmpty_iff, makeMove_fst]
  simp

/-- Witness for C1 at the cell `(1, 1)` next to a single stone at `(2, 2)`. -/
theorem makeMove_true_iff_witness :
    isValidMove 1 1 = true ∧
    ((makeMove (setCell blank 2 2 BLACK) 1 1 WHITE).1 = true ↔
      (setCell blank 2 2 BLACK) 1 1 = EMPTY ∧
        ∃ i j : Int, max |i - 1| |j - 1| = 1 ∧ isValidMove i j = true ∧
          (setCell blank 2 2 BLACK) i j ≠ EMPTY) :=
  ⟨by decide, makeMove_true_iff (setCell blank 2 2 BLACK) 1 1 WHITE (by decide)⟩

/-- Claim C2. For every board, in-bounds cell `(x, y)` and player: when
`makeMove` returns false the board is unchanged; when it returns true the cell
`(x, y)` holds `player` and every other cell is as before. -/
theorem makeMove_board (b : Board) (x y player : Int) (_hin : isValidMove x y = true) :
    ((makeMove b x y player).1 = false → (makeMove b x y player).2 = b) ∧
    ((makeMove b x y player).1 = true →
      (makeMove b x y player).2 x y = player ∧
      ∀ i j : Int, (i, j) ≠ (x, y) → (makeMove b x y player).2 i j = b i j) := by
  rw [makeMove_snd]
  constructor
  · intro h; simp [h]
  · intro h
    simp only [h, if_true]
    refine ⟨by simp [setCell], ?_⟩
    intro i j hne
    have : ¬ (i = x ∧ j = y) := fun hh => hne (by rw [hh.1, hh.2])
    simp [setCell, this]

/-- Witness for C2 at the cell `(1, 1)` next to a single stone at `(2, 2)`. -/
theorem makeMove_board_witness :
    isValidMove 1 1 = true ∧
    (makeMove (setCell blank 2 2 BLACK) 1 1 WHITE).1 = true ∧
    (makeMove (setCell blank 2 2 BLACK) 1 1 WHITE).2 1 1 = WHITE ∧
    ∀ i j : Int, (i, j) ≠ (1, 1) →
      (makeMove (setCell blank 2 2 BLACK) 1 1 WHITE).2 i j = (setCell blank 2 2 BLACK) i j :=
  ⟨by decide, by decide,
    (makeMove_board (setCell blank 2 2 BLACK) 1 1 WHITE (by decide)).2 (by decide)⟩

/-! ## Move generation -/

theorem foldl_push_eq {α β : Type} (P : β → Bool) (f : β → α) (l : List β) (acc : List α) :
    l.foldl (fun acc j => if P j = true then acc ++ [f j] else acc) acc
      = acc ++ (l.filter P).map f := by
  induction l generalizing acc with
  | nil => simp
  | cons a l ih =>
    simp only [List.foldl_cons, ih, List.filter_cons]
    split_ifs <;> simp

theorem foldl_append_eq {α β : Type} (g : β → List α) (l : List β) (acc : List α) :
    l.foldl (fun acc i => acc ++ g i) acc = acc ++ l.flatMap g := by
  induction l generalizing acc with
  | nil => simp
  | cons a l ih => simp [List.foldl_cons, ih]

theorem indices_valid {i j : Int} (hi : i ∈ indices) (hj : j ∈ indices) :
    isValidMove i j = true := by
  simp [indices] at hi hj
  rcases hi with rfl | rfl | rfl | rfl | rfl | rfl <;>
    rcases hj with rfl | rfl | rfl | rfl | rfl | rfl <;> decide

theorem mem_allCells (c : Int × Int) : c ∈ allCells ↔ isValidMove c.1 c.2 = true := by
  obtain ⟨i, j⟩ := c
  simp only [allCells, List.mem_flatMap, List.mem_map, Prod.mk.injEq, isValidMove_iff]
  constructor
  · rintro ⟨a, ha, b, hb, rfl, rfl⟩
    exact (isValidMove_iff _ _).1 (indices_valid ha hb)
  · rintro ⟨h1, h2, h3, h4⟩
    refine ⟨i, ?_, j, ?_, rfl, rfl⟩ <;> simp [indices] <;> omega

theorem getValidMoves_eq_filter (b : Board) (player : Int) :
    getValidMoves b player =
      allCells.filter fun c => isEmpty b c.1 c.2 && hasNeighbor b c.1 c.2 := by
  have h1 : ∀ (i : Int) (acc : List (Int × Int)), i ∈ indices →
      indices.foldl (fun validMoves j =>
        if isEmpty b i j then
          if isValidMove i j && (makeMove b i j player).1 then validMoves ++ [(i, j)]
          else validMoves
        else validMoves) acc
      = acc ++ (indices.filter fun j => isEmpty b i j && hasNeighbor b i j).map fun j => (i, j) := by
    intro i acc hi
    rw [← foldl_push_eq]
    apply List.foldl_ext
    intro a j hj
    simp only [makeMove_fst, indices_valid hi hj, Bool.true_and]
    cases isEmpty b i j <;> cases hasNeighbor b i j <;> simp
  unfold getValidMoves
  rw [List.foldl_ext _ (fun acc i => acc ++ (indices.filter fun j => isEmpty b i j && hasNeighbor b i j).map fun j => (i, j)) _ (fun acc i hi => h1 i acc hi)]
  rw [foldl_append_eq]
  simp only [allCells, List.nil_append, List.filter_flatMap, List.filter_map]
  rfl

theorem allCells_pairwise : allCells.Pairwise rowMajorLt := by
  unfold rowMajorLt
  decide

theorem rowMajorLt_irrefl (c : Int × Int) : ¬ rowMajorLt c c := by
  unfold rowMajorLt; omega

theorem getValidMoves_player (b : Board) (p q : Int) :
    getValidMoves b p = getValidMoves b q := by
  rw [getValidMoves_eq_filter, getValidMoves_eq_filter]

theorem mem_getValidMoves (b : Board) (player : Int) (c : Int × Int) :
    c ∈ getValidMoves b player ↔
      isValidMove c.1 c.2 = true ∧ isEmpty b c.1 c.2 = true ∧ hasNeighbor b c.1 c.2 = true := by
  rw [getValidMoves_eq_filter, List.mem_filter, mem_allCells]
  simp

/-- Claim C3. For every board and player, `getValidMoves` lists exactly the
cells of the board that are empty and have an occupied cell of the board at
Chebyshev distance 1, in strictly increasing row-major order (hence without
duplicates); on a board whose only stone lies at `(2, 2)` the list is the
eight neighbours of `(2, 2)` in scan order. -/
theorem getValidMoves_spec (b : Board) (player : Int) :
    (∀ c : Int × Int, c ∈ getValidMoves b player ↔
      isValidMove c.1 c.2 = true ∧ b c.1 c.2 = EMPTY ∧
        ∃ i j : Int, max |i - c.1| |j - c.2| = 1 ∧ isValidMove i j = true ∧ b i j ≠ EMPTY) ∧
    (getValidMoves b player).Pairwise rowMajorLt ∧
    (getValidMoves b player).Nodup ∧
    (∀ stone : Int, stone ≠ EMPTY →
      getValidMoves (setCell blank 2 2 stone) player =
        [(1, 1), (1, 2), (1, 3), (2, 1), (2, 3), (3, 1), (3, 2), (3, 3)]) := by
  have hp : (getValidMoves b player).Pairwise rowMajorLt := by
    rw [getValidMoves_eq_filter]
    exact allCells_pairwise.sublist (List.filter_sublist _)
  refine ⟨?_, hp, ?_, ?_⟩
  · intro c
    rw [mem_getValidMoves, hasNeighbor_iff, isEmpty_iff]
  · exact hp.imp_of_mem fun {c d} _ _ h hcd => rowMajorLt_irrefl c (by rw [← hcd] at h; exact h)
  · intro stone hs
    have hs' : ¬ stone = 0 := hs
    rw [getValidMoves_eq_filter]
    simp [allCells, indices, List.filter, isEmpty, hasNeighbor, setCell, blank, offsets,
      isValidMove, EMPTY, BOARD_SIZE, hs']

/-! ## Evaluation -/

theorem foldl_score {β : Type} (A B : β → Prop) [DecidablePred A] [DecidablePred B]
    (l : List β) (s : Int) :
    l.foldl (fun s j => if A j then s + 1 else if B j then s - 1 else s) s
      = s + (l.map fun j => if A j then (1 : Int) else if B j then -1 else 0).sum := by
  induction l generalizing s with
  | nil => simp
  | cons a l ih =>
    simp only [List.foldl_cons, ih, List.map_cons, List.sum_cons]
    split_ifs <;> ring

theorem foldl_add_sum {β : Type} (g : β → Int) (l : List β) (s : Int) :
    l.foldl (fun s i => s + g i) s = s + (l.map g).sum := by
  induction l generalizing s with
  | nil => simp
  | cons a l ih =>
    simp only [List.foldl_cons, ih, List.map_cons, List.sum_cons]
    ring

theorem sum_flatMap_eq {β : Type} (g : β → List Int) (l : List β) :
    (l.flatMap g).sum = (l.map fun a => (g a).sum).sum := by
  induction l with
  | nil => simp
  | cons a l ih => simp [List.flatMap_cons, List.sum_append, ih]

theorem evaluate_eq_sum (b : Board) (player : Int) :
    evaluate b player =
      (allCells.map fun c =>
        if b c.1 c.2 = player then (1 : Int)
        else if b c.1 c.2 = sub32 3 player then -1 else 0).sum := by
  unfold evaluate
  simp only [foldl_score]
  rw [foldl_add_sum]
  simp only [allCells, List.map_flatMap, List.map_map, sum_flatMap_eq, zero_add]
  rfl

theorem sum_score_eq_count (b : Board) (p q : Int) (hpq : p ≠ q) (l : List (Int × Int)) :
    (l.map fun c => if b c.1 c.2 = p then (1 : Int) else if b c.1 c.2 = q then -1 else 0).sum
      = ((l.filter fun c => decide (b c.1 c.2 = p)).length : Int)
        - ((l.filter fun c => decide (b c.1 c.2 = q)).length : Int) := by
  induction l with
  | nil => simp
  | cons a l ih =>
    simp only [List.map_cons, List.sum_cons, ih, List.filter_cons]
    by_cases h1 : b a.1 a.2 = p
    · simp [h1, hpq]
      ring
    · by_cases h2 : b a.1 a.2 = q
      · simp [h1, h2, Ne.symm hpq]
        ring
      · simp [h1, h2]

theorem evaluate_eq_count (b : Board) (p : Int) (hp : p ≠ sub32 3 p) :
    evaluate b p = (countCells b p : Int) - (countCells b (sub32 3 p) : Int) := by
  rw [evaluate_eq_sum, sum_score_eq_count b p _ hp]
  rfl

/-- Claim C9. For every board and player `p` in {Black, White}, `evaluate`
returns the number of cells holding `p` minus the number of cells holding the
opponent, and it is the negation of the opponent's evaluation. -/
theorem evaluate_material (b : Board) (p : Int) (hp : p = BLACK ∨ p = WHITE) :
    evaluate b p = (countCells b p : Int) - (countCells b (opponent p) : Int) ∧
    evaluate b p = - evaluate b (opponent p) := by
  rcases hp with rfl | rfl
  · have e1 := evaluate_eq_count b 1 (by decide)
    have e2 := evaluate_eq_count b 2 (by decide)
    have s1 : sub32 3 1 = 2 := by decide
    have s2 : sub32 3 2 = 1 := by decide
    rw [s1] at e1
    rw [s2] at e2
    simp only [BLACK, opponent]
    norm_num
    rw [e1, e2]
    constructor <;> ring
  · have e1 := evaluate_eq_count b 1 (by decide)
    have e2 := evaluate_eq_count b 2 (by decide)
    have s1 : sub32 3 1 = 2 := by decide
    have s2 : sub32 3 2 = 1 := by decide
    rw [s1] at e1
    rw [s2] at e2
    simp only [WHITE, opponent]
    norm_num
    rw [e1, e2]
    constructor <;> ring

/-- Witness for C9 on the board with a single black stone, for Black. -/
theorem evaluate_material_witness :
    (BLACK = BLACK ∨ BLACK = WHITE) ∧
    evaluate (setCell blank 2 2 BLACK) BLACK
      = (countCells (setCell blank 2 2 BLACK) BLACK : Int)
        - (countCells (setCell blank 2 2 BLACK) (opponent BLACK) : Int) ∧
    evaluate (setCell blank 2 2 BLACK) BLACK
      = - evaluate (setCell blank 2 2 BLACK) (opponent BLACK) :=
  ⟨Or.inl rfl, evaluate_material (setCell blank 2 2 BLACK) BLACK (Or.inl rfl)⟩

/-! ## Construction -/

theorem foldl_setCell_row (g : Int → Int) (i : Int) (l : List Int) (b : Board) (x y : Int) :
    (l.foldl (fun b j => setCell b i j (g j)) b) x y
      = if x = i ∧ y ∈ l then g y else b x y := by
  induction l generalizing b with
  | nil => simp
  | cons a l ih =>
    simp only [List.foldl_cons, ih, List.mem_cons, setCell]
    by_cases hx : x = i <;> by_cases hy : y ∈ l <;> by_cases hya : y = a <;> simp [hx, hy, hya]

theorem foldl_setCell_grid (g : Int → Int → Int) (cols l : List Int) (b : Board) (x y : Int) :
    (l.foldl (fun b i => cols.foldl (fun b j => setCell b i j (g i j)) b) b) x y
      = if x ∈ l ∧ y ∈ cols then g x y else b x y := by
  induction l generalizing b with
  | nil => simp
  | cons a l ih =>
    simp only [List.foldl_cons, ih, List.mem_cons, foldl_setCell_row]
    by_cases hx : x ∈ l <;> by_cases hy : y ∈ cols <;> by_cases hxa : x = a <;> simp [hx, hy, hxa]

theorem OthelloBoard_apply (gameboard : List Char) (x y : Int) :
    OthelloBoard gameboard x y =
      if x ∈ indices ∧ y ∈ indices then
        (if charAt gameboard (x * BOARD_SIZE + y) = 'O' then WHITE
         else if charAt gameboard (x * BOARD_SIZE + y) = 'X' then BLACK else EMPTY)
      else EMPTY := by
  have h : OthelloBoard gameboard =
      indices.foldl (fun b i => indices.foldl (fun b j => setCell b i j
        (if charAt gameboard (i * BOARD_SIZE + j) = 'O' then WHITE
         else if charAt gameboard (i * BOARD_SIZE + j) = 'X' then BLACK else EMPTY)) b) blank := by
    unfold OthelloBoard
    congr 1
    funext b i
    congr 1
    funext b j
    simp only
    split_ifs <;> rfl
  rw [h, foldl_setCell_grid (fun i j =>
        (if charAt gameboard (i * BOARD_SIZE + j) = 'O' then WHITE
         else if charAt gameboard (i * BOARD_SIZE + j) = 'X' then BLACK else EMPTY))]
  rfl

/-- Claim C10. For every description of at least 36 symbols and every cell
`(i, j)` of the board, symbol number `i * 6 + j` exists and `getPiece` on the
constructed board returns White when that symbol is `O`, Black when it is
`X` and Empty for any other symbol, the lower-case letters `o` and `x`
included. -/
theorem getPiece_OthelloBoard (gameboard : List Char) (i j : Nat)
    (hlen : 36 ≤ gameboard.length) (hi : i < 6) (hj : j < 6) :
    ∃ c : Char, gameboard.get? (i * 6 + j) = some c ∧
      (c = 'O' → getPiece (OthelloBoard gameboard) i j = WHITE) ∧
      (c = 'X' → getPiece (OthelloBoard gameboard) i j = BLACK) ∧
      (c ≠ 'O' → c ≠ 'X' → getPiece (OthelloBoard gameboard) i j = EMPTY) ∧
      (c = 'o' ∨ c = 'x' → getPiece (OthelloBoard gameboard) i j = EMPTY) := by
  have hlt : i * 6 + j < gameboard.length := by omega
  obtain ⟨c, hcdef⟩ : ∃ c, gameboard.get ⟨i * 6 + j, hlt⟩ = c := ⟨_, rfl⟩
  refine ⟨c, by rw [List.get?_eq_get hlt, hcdef], ?_⟩
  have hmem : (i : Int) ∈ indices ∧ (j : Int) ∈ indices := by
    constructor <;> simp [indices] <;> omega
  have hc : charAt gameboard ((i : Int) * BOARD_SIZE + j) = c := by
    have : ((i : Int) * BOARD_SIZE + j).toNat = i * 6 + j := by
      simp only [BOARD_SIZE]; omega
    simp only [charAt, this]
    rw [List.getD_eq_getElem _ _ hlt, ← hcdef]
    rfl
  simp only [getPiece, OthelloBoard_apply, hmem, and_self, if_true, hc]
  refine ⟨?_, ?_, ?_, ?_⟩
  · intro h; simp [h]
  · intro h; simp [h]
  · intro h1 h2; simp [h1, h2]
  · rintro (h | h) <;> simp [h]

/-- Witness for C10 on a description whose symbol 0 is a lower-case `o`. -/
theorem getPiece_OthelloBoard_witness :
    36 ≤ ("oXO+++++++++++++++++++++++++++++++++".toList).length ∧ 0 < 6 ∧
    ∃ c : Char, ("oXO+++++++++++++++++++++++++++++++++".toList).get? (0 * 6 + 0) = some c ∧
      (c = 'O' → getPiece (OthelloBoard "oXO+++++++++++++++++++++++++++++++++".toList)
        ((0 : Nat) : Int) ((0 : Nat) : Int) = WHITE) ∧
      (c = 'X' → getPiece (OthelloBoard "oXO+++++++++++++++++++++++++++++++++".toList)
        ((0 : Nat) : Int) ((0 : Nat) : Int) = BLACK) ∧
      (c ≠ 'O' → c ≠ 'X' →
        getPiece (OthelloBoard "oXO+++++++++++++++++++++++++++++++++".toList)
          ((0 : Nat) : Int) ((0 : Nat) : Int) = EMPTY) ∧
      (c = 'o' ∨ c = 'x' →
        getPiece (OthelloBoard "oXO+++++++++++++++++++++++++++++++++".toList)
          ((0 : Nat) : Int) ((0 : Nat) : Int) = EMPTY) :=
  ⟨by decide, by decide,
    getPiece_OthelloBoard "oXO+++++++++++++++++++++++++++++++++".toList 0 0
      (by decide) (by decide) (by decide)⟩

/-! ## Line capture -/

theorem walk_succ (b : Board) (player dx dy : Int) (n : Nat) (nx ny : Int) :
    walk b player dx dy (n + 1) nx ny =
      if continues b player nx ny = true then walk b player dx dy n (nx + dx) (ny + dy)
      else some (nx, ny) := rfl

theorem walk_run (b : Board) (player dx dy x y : Int) :
    ∀ (m n t : Nat), m < n →
      (∀ s : Nat, t ≤ s → s < t + m → continues b player (x + s * dx) (y + s * dy) = true) →
      continues b player (x + (t + m : Nat) * dx) (y + (t + m : Nat) * dy) = false →
      walk b player dx dy n (x + t * dx) (y + t * dy)
        = some (x + (t + m : Nat) * dx, y + (t + m : Nat) * dy) := by
  intro m
  induction m with
  | zero =>
    intro n t hn _ hstop
    obtain ⟨n, rfl⟩ : ∃ n', n = n' + 1 := ⟨n - 1, by omega⟩
    simp only [Nat.add_zero] at hstop ⊢
    rw [walk_succ, hstop]
    simp
  | succ m ih =>
    intro n t hn hrun hstop
    obtain ⟨n, rfl⟩ : ∃ n', n = n' + 1 := ⟨n - 1, by omega⟩
    rw [walk_succ, hrun t (le_refl _) (by omega)]
    simp only [if_true]
    have e1 : x + (t : Int) * dx + dx = x + ((t + 1 : Nat) : Int) * dx := by push_cast; ring
    have e2 : y + (t : Int) * dy + dy = y + ((t + 1 : Nat) : Int) * dy := by push_cast; ring
    rw [e1, e2, ih n (t + 1) (by omega) (fun s h1 h2 => hrun s (by omega) (by omega))]
    · have : t + 1 + m = t + (m + 1) := by omega
      rw [this]
    · have : t + 1 + m = t + (m + 1) := by omega
      rw [this]; exact hstop

theorem off_board_far {x y dx dy : Int} (hin : isValidMove x y = true) (hd : IsDirection dx dy)
    (s : Nat) (hs : 6 ≤ s) : isValidMove (x + s * dx) (y + s * dy) = false := by
  rw [Bool.eq_false_iff]
  intro h
  rw [isValidMove_iff] at hin h
  obtain ⟨hx, hy, h0⟩ := hd
  rcases hx with rfl | rfl | rfl <;> rcases hy with rfl | rfl | rfl <;>
    simp at h0 h <;> omega

theorem ray_injective {x y dx dy : Int} (hd : IsDirection dx dy) (s t : Nat)
    (h1 : x + s * dx = x + t * dx) (h2 : y + s * dy = y + t * dy) : s = t := by
  obtain ⟨hx, hy, h0⟩ := hd
  rcases hx with rfl | rfl | rfl <;> rcases hy with rfl | rfl | rfl <;>
    simp at h0 h1 h2 <;> omega

theorem ray_disjoint {x y dx dy ex ey : Int} (hd : IsDirection dx dy) (he : IsDirection ex ey)
    (hne : (dx, dy) ≠ (ex, ey)) (s t : Nat) (hs : 1 ≤ s) (ht : 1 ≤ t) :
    ¬ (x + s * dx = x + t * ex ∧ y + s * dy = y + t * ey) := by
  rintro ⟨h1, h2⟩
  obtain ⟨hx, hy, h0⟩ := hd
  obtain ⟨hx', hy', h0'⟩ := he
  rcases hx with rfl | rfl | rfl <;> rcases hy with rfl | rfl | rfl <;>
    rcases hx' with rfl | rfl | rfl <;> rcases hy' with rfl | rfl | rfl <;>
    simp at h0 h0' h1 h2 hne <;> omega

/-- The walking loop stops: from a cell of the board, in any of the eight
directions, there is a first cell at which the loop condition fails, at most
six steps away. -/
theorem run_length_exists (b : Board) (player : Int) {x y dx dy : Int}
    (hin : isValidMove x y = true) (hd : IsDirection dx dy) :
    ∃ m : Nat, m ≤ 5 ∧
      (∀ s : Nat, 1 ≤ s → s < 1 + m → continues b player (x + s * dx) (y + s * dy) = true) ∧
      continues b player (x + (1 + m : Nat) * dx) (y + (1 + m : Nat) * dy) = false := by
  have hex : ∃ m : Nat,
      continues b player (x + (1 + m : Nat) * dx) (y + (1 + m : Nat) * dy) = false := by
    refine ⟨5, ?_⟩
    have := off_board_far hin hd 6 (le_refl _)
    simp only [continues]
    rw [show ((1 + 5 : Nat) : Int) = ((6 : Nat) : Int) from rfl, this]
    rfl
  classical
  refine ⟨Nat.find hex, ?_, ?_, Nat.find_spec hex⟩
  · apply Nat.find_min' hex
    have := off_board_far hin hd 6 (le_refl _)
    simp only [continues]
    rw [show ((1 + 5 : Nat) : Int) = ((6 : Nat) : Int) from rfl, this]
    rfl
  · intro s hs1 hs2
    have := Nat.find_min hex (m := s - 1) (by omega)
    rw [show 1 + (s - 1) = s from by omega] at this
    simpa using this

theorem rewriteRun_spec (player : Int) {x y dx dy : Int} (hd : IsDirection dx dy) (k : Nat) :
    ∀ (m n t : Nat) (b : Board), m < n → t + m = k + 1 →
      ∃ b1 : Board,
        rewriteRun player dx dy (x + (k + 1 : Nat) * dx) (y + (k + 1 : Nat) * dy) n b
          (x + t * dx) (y + t * dy) = some b1 ∧
        ∀ i j : Int,
          ((∃ s : Nat, t ≤ s ∧ s ≤ k ∧ i = x + s * dx ∧ j = y + s * dy) → b1 i j = player) ∧
          ((¬ ∃ s : Nat, t ≤ s ∧ s ≤ k ∧ i = x + s * dx ∧ j = y + s * dy) → b1 i j = b i j) := by
  intro m
  induction m with
  | zero =>
    intro n t b hn ht
    obtain ⟨n, rfl⟩ : ∃ n', n = n' + 1 := ⟨n - 1, by omega⟩
    have htk : t = k + 1 := by omega
    subst htk
    refine ⟨b, by simp [rewriteRun], ?_⟩
    intro i j
    constructor
    · rintro ⟨s, h1, h2, -⟩
      omega
    · intro _; rfl
  | succ m ih =>
    intro n t b hn ht
    obtain ⟨n, rfl⟩ : ∃ n', n = n' + 1 := ⟨n - 1, by omega⟩
    have hne : x + (t : Int) * dx ≠ x + ((k + 1 : Nat) : Int) * dx ∨
        y + (t : Int) * dy ≠ y + ((k + 1 : Nat) : Int) * dy := by
      by_contra hcon
      push_neg at hcon
      have := ray_injective hd t (k + 1) hcon.1 hcon.2
      omega
    have e1 : x + (t : Int) * dx + dx = x + ((t + 1 : Nat) : Int) * dx := by push_cast; ring
    have e2 : y + (t : Int) * dy + dy = y + ((t + 1 : Nat) : Int) * dy := by push_cast; ring
    obtain ⟨b1, hb1, hcells⟩ :=
      ih n (t + 1) (setCell b (x + t * dx) (y + t * dy) player) (by omega) (by omega)
    refine ⟨b1, ?_, ?_⟩
    · rw [rewriteRun, if_pos hne, e1, e2]
      exact hb1
    · intro i j
      constructor
      · rintro ⟨s, h1, h2, h3, h4⟩
        by_cases hst : s = t
        · subst hst
          have hnot : ¬ ∃ s' : Nat, s + 1 ≤ s' ∧ s' ≤ k ∧ i = x + s' * dx ∧ j = y + s' * dy := by
            rintro ⟨s', g1, g2, g3, g4⟩
            have := ray_injective hd s s' (h3 ▸ g3) (h4 ▸ g4)
            omega
          rw [(hcells i j).2 hnot]
          simp [setCell, h3, h4]
        · exact (hcells i j).1 ⟨s, by omega, h2, h3, h4⟩
      · intro hnot
        have hnot' : ¬ ∃ s' : Nat, t + 1 ≤ s' ∧ s' ≤ k ∧ i = x + s' * dx ∧ j = y + s' * dy := by
          rintro ⟨s', g1, g2, g3, g4⟩
          exact hnot ⟨s', by omega, g2, g3, g4⟩
        rw [(hcells i j).2 hnot']
        have : ¬ (i = x + (t : Int) * dx ∧ j = y + (t : Int) * dy) := by
          rintro ⟨g3, g4⟩
          exact hnot ⟨t, le_refl _, by omega, g3, g4⟩
        simp [setCell, this]

theorem continues_iff (b : Board) (player nx ny : Int) :
    continues b player nx ny = true ↔
      isValidMove nx ny = true ∧ b nx ny ≠ EMPTY ∧ b nx ny ≠ player := by
  simp [continues, and_assoc]

/-- One direction of `flipTiles`: the loops terminate, the cells of the
captured run become `player` and no other cell changes. -/
theorem flipDir_spec (b : Board) (player : Int) {x y dx dy : Int}
    (hin : isValidMove x y = true) (hd : IsDirection dx dy) :
    ∃ b1 : Board, flipDir b x y player dx dy = some b1 ∧
      ∀ i j : Int,
        (CapturedDir b x y player dx dy i j → b1 i j = player) ∧
        (¬ CapturedDir b x y player dx dy i j → b1 i j = b i j) := by
  obtain ⟨m, hm5, hrun, hstop⟩ := run_length_exists b player hin hd
  have hwalk := walk_run b player dx dy x y m lineFuel 1 (by simp [lineFuel]; omega) hrun hstop
  -- any captured run has the length found by the walk
  have hlen : ∀ k : Nat,
      (∀ s : Nat, 1 ≤ s → s ≤ k → continues b player (x + s * dx) (y + s * dy) = true) →
      b (x + (k + 1 : Nat) * dx) (y + (k + 1 : Nat) * dy) = player → k = m := by
    intro k hk hp
    have hkstop : continues b player (x + (k + 1 : Nat) * dx) (y + (k + 1 : Nat) * dy) = false := by
      rw [Bool.eq_false_iff, Ne, continues_iff]
      intro h
      exact h.2.2 hp
    rcases Nat.lt_trichotomy k m with h | h | h
    · have := hrun (k + 1) (by omega) (by omega)
      rw [hkstop] at this
      exact absurd this (by simp)
    · exact h
    · have := hk (1 + m) (by omega) (by omega)
      rw [hstop] at this
      exact absurd this (by simp)
  have e1 : x + dx = x + ((1 : Nat) : Int) * dx := by simp
  have e2 : y + dy = y + ((1 : Nat) : Int) * dy := by simp
  unfold flipDir
  rw [e1, e2, hwalk]
  simp only
  by_cases hend : (isValidMove (x + (1 + m : Nat) * dx) (y + (1 + m : Nat) * dy) &&
      decide (b (x + (1 + m : Nat) * dx) (y + (1 + m : Nat) * dy) = player)) = true
  · rw [if_pos hend]
    rw [Bool.and_eq_true, decide_eq_true_eq] at hend
    have hm1 : (1 + m : Nat) = (m + 1 : Nat) := by omega
    rw [hm1] at hend ⊢
    obtain ⟨b1, hb1, hcells⟩ :=
      rewriteRun_spec player (x := x) (y := y) hd m m lineFuel 1 b
        (by simp [lineFuel]; omega) (by omega)
    refine ⟨b1, hb1, ?_⟩
    intro i j
    constructor
    · rintro ⟨k, t, h1, h2, h3, h4, h5, h6, h7⟩
      have hkm := hlen k h5 h7
      subst hkm
      exact (hcells i j).1 ⟨t, h1, h2, h3, h4⟩
    · intro hnot
      apply (hcells i j).2
      rintro ⟨s, h1, h2, h3, h4⟩
      exact hnot ⟨m, s, h1, h2, h3, h4,
        fun s' g1 g2 => hrun s' g1 (by omega), hend.1, hend.2⟩
  · rw [if_neg hend]
    refine ⟨b, rfl, ?_⟩
    intro i j
    constructor
    · rintro ⟨k, t, h1, h2, h3, h4, h5, h6, h7⟩
      have hkm := hlen k h5 h7
      subst hkm
      exfalso
      apply hend
      have hm1 : (1 + k : Nat) = (k + 1 : Nat) := by omega
      rw [hm1, Bool.and_eq_true, decide_eq_true_eq]
      exact ⟨h6, h7⟩
    · intro _; rfl

theorem CapturedDir_congr (b1 b2 : Board) (x y player dx dy i j : Int)
    (h : ∀ s : Nat, 1 ≤ s → b1 (x + s * dx) (y + s * dy) = b2 (x + s * dx) (y + s * dy)) :
    CapturedDir b1 x y player dx dy i j → CapturedDir b2 x y player dx dy i j := by
  rintro ⟨k, t, h1, h2, h3, h4, h5, h6, h7⟩
  refine ⟨k, t, h1, h2, h3, h4, ?_, h6, ?_⟩
  · intro s g1 g2
    have := h5 s g1 g2
    rw [continues_iff] at this ⊢
    rw [← h s g1]
    exact this
  · rw [← h (k + 1) (by omega)]
    exact h7

theorem flipDirs_cons (b : Board) (x y player : Int) (d : Int × Int) (ds : List (Int × Int)) :
    flipDirs b x y player (d :: ds) =
      match flipDir b x y player d.1 d.2 with
      | none => none
      | some b1 => flipDirs b1 x y player ds := by
  unfold flipDirs
  rw [List.foldlM_cons]
  cases flipDir b x y player d.1 d.2 <;> rfl

/-- The directions of a duplicate-free list are processed independently: after
the loop each cell captured along one of them holds `player` and every other
cell is as on the board `b` before the first of them was processed. -/
theorem flipDirs_fold (b : Board) (player : Int) {x y : Int} (hin : isValidMove x y = true) :
    ∀ (ds done : List (Int × Int)) (bc : Board),
      (∀ d ∈ done ++ ds, IsDirection d.1 d.2) → (done ++ ds).Nodup →
      (∀ i j : Int,
        ((∃ d ∈ done, CapturedDir b x y player d.1 d.2 i j) → bc i j = player) ∧
        ((¬ ∃ d ∈ done, CapturedDir b x y player d.1 d.2 i j) → bc i j = b i j)) →
      ∃ b1 : Board, flipDirs bc x y player ds = some b1 ∧
        ∀ i j : Int,
          ((∃ d ∈ done ++ ds, CapturedDir b x y player d.1 d.2 i j) → b1 i j = player) ∧
          ((¬ ∃ d ∈ done ++ ds, CapturedDir b x y player d.1 d.2 i j) → b1 i j = b i j) := by
  intro ds
  induction ds with
  | nil =>
    intro done bc _ _ hinv
    refine ⟨bc, rfl, ?_⟩
    simpa using hinv
  | cons d rest ih =>
    intro done bc hdirs hnd hinv
    have hd : IsDirection d.1 d.2 := hdirs d (by simp)
    obtain ⟨b1, hb1, hcells⟩ := flipDir_spec bc player hin hd
    -- the board so far agrees with the original board along the ray of `d`
    have hagree : ∀ s : Nat, 1 ≤ s →
        bc (x + s * d.1) (y + s * d.2) = b (x + s * d.1) (y + s * d.2) := by
      intro s hs
      apply (hinv _ _).2
      rintro ⟨e, he, k, t, h1, h2, h3, h4, -⟩
      have hne : (d.1, d.2) ≠ (e.1, e.2) := by
        intro heq
        have hde : d = e := Prod.ext (by simpa using congrArg Prod.fst heq)
          (by simpa using congrArg Prod.snd heq)
        subst hde
        rw [List.nodup_append] at hnd
        exact hnd.2.2 he (by simp)
      exact ray_disjoint hd (hdirs e (by simp [he])) hne s t hs h1 ⟨h3, h4⟩
    have hiff : ∀ i j : Int,
        CapturedDir bc x y player d.1 d.2 i j ↔ CapturedDir b x y player d.1 d.2 i j :=
      fun i j => ⟨CapturedDir_congr bc b x y player d.1 d.2 i j hagree,
        CapturedDir_congr b bc x y player d.1 d.2 i j fun s hs => (hagree s hs).symm⟩
    have hstep : ∀ i j : Int,
        ((∃ e ∈ done ++ [d], CapturedDir b x y player e.1 e.2 i j) → b1 i j = player) ∧
        ((¬ ∃ e ∈ done ++ [d], CapturedDir b x y player e.1 e.2 i j) → b1 i j = b i j) := by
      intro i j
      constructor
      · rintro ⟨e, he, hcap⟩
        by_cases hc : CapturedDir bc x y player d.1 d.2 i j
        · exact (hcells i j).1 hc
        · rw [(hcells i j).2 hc]
          rcases List.mem_append.1 he with he | he
          · exact (hinv i j).1 ⟨e, he, hcap⟩
          · rw [List.mem_singleton] at he
            subst he
            exact absurd ((hiff i j).2 hcap) hc
      · intro hnot
        have hc : ¬ CapturedDir bc x y player d.1 d.2 i j := fun h =>
          hnot ⟨d, by simp, (hiff i j).1 h⟩
        rw [(hcells i j).2 hc]
        apply (hinv i j).2
        rintro ⟨e, he, hcap⟩
        exact hnot ⟨e, by simp [he], hcap⟩
    have happ : done ++ [d] ++ rest = done ++ d :: rest := by simp
    obtain ⟨b2, hb2, hfinal⟩ := ih (done ++ [d]) b1 (by rw [happ]; exact hdirs)
      (by rw [happ]; exact hnd) hstep
    refine ⟨b2, ?_, ?_⟩
    · rw [flipDirs_cons, hb1]
      exact hb2
    · rw [← happ]
      exact hfinal

theorem flipTiles_eq_flipDirs (b : Board) (x y player : Int) :
    flipTiles b x y player = flipDirs b x y player directions := by
  simp only [flipTiles, flipDirs, directions, offsets, List.foldlM_cons, List.foldlM_nil]
  simp [Option.bind_assoc]

theorem mem_directions (d : Int × Int) : d ∈ directions ↔ IsDirection d.1 d.2 := by
  obtain ⟨dx, dy⟩ := d
  simp only [directions, IsDirection, List.mem_cons, Prod.mk.injEq, List.mem_singleton,
    List.mem_nil_iff, or_false]
  constructor
  · intro h
    rcases h with h | h | h | h | h | h | h | h <;> obtain ⟨rfl, rfl⟩ := h <;> simp
  · rintro ⟨hx, hy, h0⟩
    rcases hx with rfl | rfl | rfl <;> rcases hy with rfl | rfl | rfl <;> simp at h0 ⊢

theorem flipDirs_spec (b : Board) (player : Int) {x y : Int} (hin : isValidMove x y = true)
    (ds : List (Int × Int)) (hperm : ds.Perm directions) :
    ∃ b1 : Board, flipDirs b x y player ds = some b1 ∧
      ∀ i j : Int,
        ((∃ d ∈ directions, CapturedDir b x y player d.1 d.2 i j) → b1 i j = player) ∧
        ((¬ ∃ d ∈ directions, CapturedDir b x y player d.1 d.2 i j) → b1 i j = b i j) := by
  have hnd : ([] ++ ds).Nodup := by
    rw [List.nil_append, hperm.nodup_iff]
    decide
  have hdirs : ∀ d ∈ [] ++ ds, IsDirection d.1 d.2 := by
    intro d hd
    rw [List.nil_append, hperm.mem_iff] at hd
    exact (mem_directions d).1 hd
  obtain ⟨b1, hb1, hcells⟩ := flipDirs_fold b player hin ds [] b hdirs hnd (by simp)
  refine ⟨b1, hb1, ?_⟩
  intro i j
  have hiff : (∃ d ∈ [] ++ ds, CapturedDir b x y player d.1 d.2 i j) ↔
      ∃ d ∈ directions, CapturedDir b x y player d.1 d.2 i j := by
    constructor
    · rintro ⟨d, hd, hc⟩
      rw [List.nil_append, hperm.mem_iff] at hd
      exact ⟨d, hd, hc⟩
    · rintro ⟨d, hd, hc⟩
      exact ⟨d, by rw [List.nil_append, hperm.mem_iff]; exact hd, hc⟩
  rw [← hiff]
  exact hcells i j

theorem continues_iff_opponent (b : Board) (player nx ny : Int)
    (hp : player = BLACK ∨ player = WHITE) (hwf : WellFormed b) :
    continues b player nx ny = true ↔
      isValidMove nx ny = true ∧ b nx ny = opponent player := by
  rw [continues_iff]
  constructor
  · rintro ⟨hv, h0, h1⟩
    refine ⟨hv, ?_⟩
    have := hwf nx ny hv
    simp only [EMPTY, BLACK, WHITE, opponent] at *
    omega
  · rintro ⟨hv, h⟩
    refine ⟨hv, ?_, ?_⟩ <;> simp only [EMPTY, BLACK, WHITE, opponent] at * <;> omega

theorem Captured_iff (b : Board) (x y player i j : Int)
    (hp : player = BLACK ∨ player = WHITE) (hwf : WellFormed b) :
    Captured b x y player i j ↔
      ∃ d ∈ directions, CapturedDir b x y player d.1 d.2 i j := by
  constructor
  · rintro ⟨dx, dy, hd, k, _, ⟨t, h1, h2, h3, h4⟩, h5, h6, h7⟩
    refine ⟨(dx, dy), (mem_directions (dx, dy)).2 hd, k, t, h1, h2, h3, h4, ?_, h6, h7⟩
    intro s g1 g2
    exact (continues_iff_opponent b player _ _ hp hwf).2 (h5 s g1 g2)
  · rintro ⟨d, hd, k, t, h1, h2, h3, h4, h5, h6, h7⟩
    refine ⟨d.1, d.2, (mem_directions d).1 hd, k, by omega, ⟨t, h1, h2, h3, h4⟩, ?_, h6, h7⟩
    intro s g1 g2
    exact (continues_iff_opponent b player _ _ hp hwf).1 (h5 s g1 g2)

theorem Captured_cell (b : Board) (x y player i j : Int)
    (h : Captured b x y player i j) : b i j = opponent player := by
  obtain ⟨dx, dy, _, k, _, ⟨t, h1, h2, h3, h4⟩, h5, -, -⟩ := h
  rw [h3, h4]
  exact (h5 t h1 h2).2

/-- Claim C4. For every well-formed board, in-bounds cell `(x, y)` and player
in {Black, White}, `flipTiles` terminates and the board it leaves differs from
the board before the call exactly in the captured cells, judged on the board
before the call: a cell changes if and only if it lies on a run of opponent
cells that starts next to `(x, y)` in one of the eight unit directions and is
followed by a cell of the board holding `player`; such a cell changes from the
opponent to `player`.  The cell `(x, y)`, every empty cell and every cell of
`player` is unchanged, and processing the eight directions in any other order
gives the same board. -/
theorem flipTiles_spec (b : Board) (x y player : Int) (hin : isValidMove x y = true)
    (hp : player = BLACK ∨ player = WHITE) (hwf : WellFormed b) :
    ∃ b1 : Board, flipTiles b x y player = some b1 ∧
      (∀ i j : Int,
        (b1 i j ≠ b i j ↔ Captured b x y player i j) ∧
        (Captured b x y player i j → b i j = opponent player ∧ b1 i j = player)) ∧
      b1 x y = b x y ∧
      (∀ i j : Int, b i j = EMPTY → b1 i j = EMPTY) ∧
      (∀ i j : Int, b i j = player → b1 i j = player) ∧
      (∀ ds : List (Int × Int), ds.Perm directions → flipDirs b x y player ds = some b1) := by
  obtain ⟨b1, hb1, hcells⟩ := flipDirs_spec b player hin directions (List.Perm.refl _)
  have hne : opponent player ≠ player := by
    rcases hp with rfl | rfl <;> decide
  have hcap : ∀ i j : Int, Captured b x y player i j → b i j = opponent player ∧ b1 i j = player :=
    fun i j h => ⟨Captured_cell b x y player i j h,
      (hcells i j).1 ((Captured_iff b x y player i j hp hwf).1 h)⟩
  have hkeep : ∀ i j : Int, ¬ Captured b x y player i j → b1 i j = b i j :=
    fun i j h => (hcells i j).2 fun h1 => h ((Captured_iff b x y player i j hp hwf).2 h1)
  have hsame : ∀ i j : Int, b i j ≠ opponent player → b1 i j = b i j :=
    fun i j h => hkeep i j fun hc => h (hcap i j hc).1
  refine ⟨b1, by rw [flipTiles_eq_flipDirs]; exact hb1, ?_, ?_, ?_, ?_, ?_⟩
  · intro i j
    refine ⟨⟨?_, ?_⟩, hcap i j⟩
    · intro hdiff
      by_contra hc
      exact hdiff (hkeep i j hc)
    · intro hc
      rw [(hcap i j hc).1, (hcap i j hc).2]
      exact hne.symm
  · apply hkeep
    rintro ⟨dx, dy, hd, k, _, ⟨t, h1, h2, h3, h4⟩, -⟩
    have := ray_injective (x := x) (y := y) hd 0 t (by push_cast; linarith)
      (by push_cast; linarith)
    omega
  · intro i j h0
    rw [hsame i j, h0]
    rw [h0]
    rcases hp with rfl | rfl <;> decide
  · intro i j h0
    rw [hsame i j, h0]
    rw [h0]
    exact hne.symm
  · intro ds hperm
    obtain ⟨b2, hb2, hcells2⟩ := flipDirs_spec b player hin ds hperm
    rw [hb2]
    congr 1
    funext i j
    by_cases hc : ∃ d ∈ directions, CapturedDir b x y player d.1 d.2 i j
    · rw [(hcells i j).1 hc, (hcells2 i j).1 hc]
    · rw [(hcells i j).2 hc, (hcells2 i j).2 hc]

theorem OthelloBoard_wellFormed (gameboard : List Char) : WellFormed (OthelloBoard gameboard) := by
  intro i j _
  rw [OthelloBoard_apply]
  split_ifs <;> simp

/-- Witness for C4 on scenario S2: the flip at `(3, 4)` for White terminates,
changes exactly the captured cells, and turns `(3, 2)` and `(3, 3)` White
while `(3, 1)` and `(3, 4)` stay White. -/
theorem flipTiles_spec_witness :
    isValidMove 3 4 = true ∧ (WHITE = BLACK ∨ WHITE = WHITE) ∧ WellFormed scenarioS2 ∧
    (flipTiles scenarioS2 3 4 WHITE).map (fun b1 => [b1 3 1, b1 3 2, b1 3 3, b1 3 4])
      = some [WHITE, WHITE, WHITE, WHITE] ∧
    ∃ b1 : Board, flipTiles scenarioS2 3 4 WHITE = some b1 ∧
      (∀ i j : Int,
        (b1 i j ≠ scenarioS2 i j ↔ Captured scenarioS2 3 4 WHITE i j) ∧
        (Captured scenarioS2 3 4 WHITE i j →
          scenarioS2 i j = opponent WHITE ∧ b1 i j = WHITE)) ∧
      b1 3 4 = scenarioS2 3 4 ∧
      (∀ i j : Int, scenarioS2 i j = EMPTY → b1 i j = EMPTY) ∧
      (∀ i j : Int, scenarioS2 i j = WHITE → b1 i j = WHITE) ∧
      (∀ ds : List (Int × Int), ds.Perm directions →
        flipDirs scenarioS2 3 4 WHITE ds = some b1) :=
  ⟨by decide, Or.inr rfl, OthelloBoard_wellFormed _, by decide,
    flipTiles_spec scenarioS2 3 4 WHITE (by decide) (Or.inr rfl) (OthelloBoard_wellFormed _)⟩

/-! ## Machine arithmetic -/

theorem wrap32_range (x : Int) : INT_MIN ≤ wrap32 x ∧ wrap32 x ≤ INT_MAX := by
  unfold wrap32 INT_MIN INT_MAX
  omega

theorem wrap32_eq (x : Int) (h1 : INT_MIN ≤ x) (h2 : x ≤ INT_MAX) : wrap32 x = x := by
  unfold wrap32
  unfold INT_MIN at h1
  unfold INT_MAX at h2
  omega

theorem neg32_eq (v : Int) (h1 : INT_MIN < v) (h2 : v ≤ INT_MAX) : neg32 v = -v := by
  unfold neg32
  apply wrap32_eq <;> unfold INT_MIN INT_MAX at * <;> omega

theorem sub32_three (p : Int) (hp : p = BLACK ∨ p = WHITE) : sub32 3 p = opponent p := by
  rcases hp with rfl | rfl <;> decide

theorem opponent_player (p : Int) (hp : p = BLACK ∨ p = WHITE) :
    opponent p = BLACK ∨ opponent p = WHITE := by
  rcases hp with rfl | rfl <;> decide

theorem sum_map_bounds {β : Type} (f : β → Int) (l : List β)
    (h : ∀ a ∈ l, -1 ≤ f a ∧ f a ≤ 1) :
    -(l.length : Int) ≤ (l.map f).sum ∧ (l.map f).sum ≤ (l.length : Int) := by
  induction l with
  | nil => simp
  | cons a l ih =>
    have ha := h a (by simp)
    have := ih fun a' ha' => h a' (by simp [ha'])
    simp only [List.map_cons, List.sum_cons, List.length_cons]
    push_cast
    omega

/-- The static evaluation lies between -36 and 36. -/
theorem evaluate_bounds (b : Board) (player : Int) :
    -36 ≤ evaluate b player ∧ evaluate b player ≤ 36 := by
  rw [evaluate_eq_sum]
  have h := sum_map_bounds (fun c : Int × Int =>
        if b c.1 c.2 = player then (1 : Int)
        else if b c.1 c.2 = sub32 3 player then -1 else 0) allCells (by
    intro a _
    simp only
    split_ifs <;> omega)
  have hlen : (allCells.length : Int) = 36 := by decide
  rw [hlen] at h
  exact h

/-! ## Termination of the search for a non-negative depth -/

theorem childBoard_some (b : Board) (move : Int × Int) (player : Int)
    (hin : isValidMove move.1 move.2 = true) :
    ∃ child : Board, childBoard b move player = some child := by
  obtain ⟨b1, hb1, -⟩ :=
    flipDirs_spec (makeMove b move.1 move.2 player).2 player hin directions (List.Perm.refl _)
  exact ⟨b1, by rw [childBoard, flipTiles_eq_flipDirs]; exact hb1⟩

theorem negaScout_succ (fuel : Nat) (b : Board) (depth alpha beta player : Int) :
    negaScout (fuel + 1) b depth alpha beta player =
      if depth = 0 ∨ isGameOver b = true then some (evaluate b player)
      else
        if (getValidMoves b player).isEmpty then
          negaScout fuel b (sub32 depth 1) alpha beta (sub32 3 player)
        else
          scoutLoop
            (fun move lo hi =>
              match childBoard b move player with
              | none => none
              | some child => negaScout fuel child (sub32 depth 1) lo hi (sub32 3 player))
            depth beta (getValidMoves b player) alpha beta := rfl

theorem scoutLoop_some (search : Int × Int → Int → Int → Option Int) (depth beta : Int) :
    ∀ (moves : List (Int × Int)) (alpha b : Int),
      (∀ mv ∈ moves, ∀ lo hi : Int, ∃ r, search mv lo hi = some r) →
      ∃ v, scoutLoop search depth beta moves alpha b = some v := by
  intro moves
  induction moves with
  | nil => intro alpha b _; exact ⟨alpha, rfl⟩
  | cons mv rest ih =>
    intro alpha b hs
    have hstep : ∃ a1, scoutStep search depth beta mv alpha b = some a1 := by
      unfold scoutStep
      obtain ⟨r, hr⟩ := hs mv (by simp) (neg32 b) (neg32 alpha)
      rw [hr]
      simp only
      split_ifs
      · exact ⟨_, rfl⟩
      · obtain ⟨r2, hr2⟩ := hs mv (by simp) (neg32 beta) (neg32 (neg32 r))
        rw [hr2]
        exact ⟨_, rfl⟩
      · exact ⟨_, rfl⟩
    obtain ⟨a1, ha1⟩ := hstep
    rw [scoutLoop, ha1]
    simp only
    split_ifs
    · exact ⟨_, rfl⟩
    · exact ih _ _ fun mv' hmv' => hs mv' (by simp [hmv'])

/-- The search returns a value whenever its depth is non-negative and the
bound on the nesting of calls exceeds it. -/
theorem negaScout_some :
    ∀ (fuel : Nat) (b : Board) (depth alpha beta player : Int),
      0 ≤ depth → depth < fuel → depth ≤ INT_MAX →
      ∃ v, negaScout fuel b depth alpha beta player = some v := by
  intro fuel
  induction fuel with
  | zero => intro b depth alpha beta player h0 h1 _; simp at h1; omega
  | succ fuel ih =>
    intro b depth alpha beta player h0 h1 h2
    rw [negaScout_succ]
    by_cases hterm : depth = 0 ∨ isGameOver b = true
    · rw [if_pos hterm]; exact ⟨_, rfl⟩
    · rw [if_neg hterm]
      have hd0 : depth ≠ 0 := fun h => hterm (Or.inl h)
      have hsub : sub32 depth 1 = depth - 1 := by
        unfold sub32
        apply wrap32_eq <;> unfold INT_MIN INT_MAX at * <;> omega
      have hlt : depth - 1 < (fuel : Int) := by push_cast at h1; omega
      rw [hsub]
      split_ifs
      · exact ih b _ _ _ _ (by omega) hlt (by omega)
      · apply scoutLoop_some
        intro mv hmv lo hi
        obtain ⟨child, hchild⟩ := childBoard_some b mv player
          ((mem_getValidMoves b player mv).1 hmv).1
        rw [hchild]
        exact ih child _ _ _ _ (by omega) hlt (by omega)

/-! ## The values returned by the search stay above `INT_MIN` -/

theorem scoutLoop_good (search : Int × Int → Int → Int → Option Int) (depth beta : Int)
    (hbeta : beta ≤ INT_MAX)
    (hsearch : ∀ (mv : Int × Int) (lo hi r : Int), INT_MIN < lo → lo ≤ INT_MAX →
      INT_MIN ≤ hi → hi ≤ INT_MAX → search mv lo hi = some r → INT_MIN < r ∧ r ≤ INT_MAX) :
    ∀ (moves : List (Int × Int)) (alpha b v : Int),
      INT_MIN < alpha → alpha ≤ INT_MAX → (b = beta ∨ alpha < beta) →
      scoutLoop search depth beta moves alpha b = some v → INT_MIN < v ∧ v ≤ INT_MAX := by
  intro moves
  induction moves with
  | nil =>
    intro alpha b v h1 h2 _ hv
    simp only [scoutLoop, Option.some.injEq] at hv
    subst hv
    exact ⟨h1, h2⟩
  | cons mv rest ih =>
    intro alpha b v h1 h2 hb hv
    rw [scoutLoop] at hv
    have hstep : ∀ a1, scoutStep search depth beta mv alpha b = some a1 →
        INT_MIN < a1 ∧ a1 ≤ INT_MAX := by
      intro a1 ha1
      unfold scoutStep at ha1
      cases hr : search mv (neg32 b) (neg32 alpha) with
      | none => rw [hr] at ha1; simp at ha1
      | some r =>
        rw [hr] at ha1
        simp only at ha1
        have hscore := wrap32_range (-r)
        by_cases hgt : neg32 r > alpha
        · rw [if_pos hgt] at ha1
          by_cases hfirst : b = beta ∨ depth ≤ 2
          · rw [if_pos hfirst] at ha1
            simp only [Option.some.injEq] at ha1
            subst ha1
            exact ⟨by omega, hscore.2⟩
          · rw [if_neg hfirst] at ha1
            have hab : alpha < beta := by
              rcases hb with hb | hb
              · exact absurd (Or.inl hb) hfirst
              · exact hb
            have hnb : neg32 beta = -beta := neg32_eq beta (by omega) hbeta
            cases hr2 : search mv (neg32 beta) (neg32 (neg32 r)) with
            | none => rw [hr2] at ha1; simp at ha1
            | some r2 =>
              rw [hr2] at ha1
              simp only [Option.some.injEq] at ha1
              have hs2 := wrap32_range (-(neg32 r))
              have hr2good := hsearch mv _ _ r2
                (by rw [hnb]; unfold INT_MIN INT_MAX at *; omega)
                (by rw [hnb]; unfold INT_MIN INT_MAX at *; omega) hs2.1 hs2.2 hr2
              rw [neg32_eq r2 hr2good.1 hr2good.2] at ha1
              subst ha1
              unfold INT_MIN INT_MAX at *
              omega
        · rw [if_neg hgt] at ha1
          simp only [Option.some.injEq] at ha1
          subst ha1
          exact ⟨h1, h2⟩
    cases hs : scoutStep search depth beta mv alpha b with
    | none => rw [hs] at hv; simp at hv
    | some a1 =>
      rw [hs] at hv
      simp only at hv
      have ha1 := hstep a1 hs
      by_cases hcut : a1 ≥ beta
      · rw [if_pos hcut] at hv
        simp only [Option.some.injEq] at hv
        subst hv
        exact ha1
      · rw [if_neg hcut] at hv
        exact ih a1 _ v ha1.1 ha1.2 (Or.inr (by omega)) hv

/-- With a lower bound above `INT_MIN` the search never returns `INT_MIN`. -/
theorem negaScout_good :
    ∀ (fuel : Nat) (b : Board) (depth alpha beta player v : Int),
      INT_MIN < alpha → alpha ≤ INT_MAX → INT_MIN ≤ beta → beta ≤ INT_MAX →
      negaScout fuel b depth alpha beta player = some v → INT_MIN < v ∧ v ≤ INT_MAX := by
  intro fuel
  induction fuel with
  | zero => intro b depth alpha beta player v _ _ _ _ h; simp [negaScout] at h
  | succ fuel ih =>
    intro b depth alpha beta player v h1 h2 h3 h4 hv
    rw [negaScout_succ] at hv
    by_cases hterm : depth = 0 ∨ isGameOver b = true
    · rw [if_pos hterm] at hv
      simp only [Option.some.injEq] at hv
      subst hv
      have := evaluate_bounds b player
      unfold INT_MIN INT_MAX
      omega
    · rw [if_neg hterm] at hv
      by_cases hemp : (getValidMoves b player).isEmpty = true
      · rw [if_pos hemp] at hv
        exact ih b _ alpha beta _ v h1 h2 h3 h4 hv
      · rw [if_neg hemp] at hv
        refine scoutLoop_good _ depth beta h4 ?_ _ alpha beta v h1 h2 (Or.inl rfl) hv
        intro mv lo hi r g1 g2 g3 g4 hr
        cases hc : childBoard b mv player with
        | none => rw [hc] at hr; simp at hr
        | some child =>
          rw [hc] at hr
          exact ih child _ lo hi _ r g1 g2 g3 g4 hr

/-- With the full window the search never returns `INT_MIN`. -/
theorem negaScout_full_good :
    ∀ (fuel : Nat) (b : Board) (depth player v : Int),
      negaScout fuel b depth INT_MIN INT_MAX player = some v → INT_MIN < v ∧ v ≤ INT_MAX := by
  intro fuel
  induction fuel with
  | zero => intro b depth player v h; simp [negaScout] at h
  | succ fuel ih =>
    intro b depth player v hv
    rw [negaScout_succ] at hv
    by_cases hterm : depth = 0 ∨ isGameOver b = true
    · rw [if_pos hterm] at hv
      simp only [Option.some.injEq] at hv
      subst hv
      have := evaluate_bounds b player
      unfold INT_MIN INT_MAX
      omega
    · rw [if_neg hterm] at hv
      by_cases hemp : (getValidMoves b player).isEmpty = true
      · rw [if_pos hemp] at hv
        exact ih b _ _ v hv
      · rw [if_neg hemp] at hv
        have hsearch : ∀ (mv : Int × Int) (lo hi r : Int), INT_MIN < lo → lo ≤ INT_MAX →
            INT_MIN ≤ hi → hi ≤ INT_MAX →
            (match childBoard b mv player with
              | none => none
              | some child => negaScout fuel child (sub32 depth 1) lo hi (sub32 3 player))
              = some r → INT_MIN < r ∧ r ≤ INT_MAX := by
          intro mv lo hi r g1 g2 g3 g4 hr
          cases hc : childBoard b mv player with
          | none => rw [hc] at hr; simp at hr
          | some child =>
            rw [hc] at hr
            exact negaScout_good fuel child _ lo hi _ r g1 g2 g3 g4 hr
        cases hmoves : getValidMoves b player with
        | nil => rw [hmoves] at hemp; simp at hemp
        | cons mv rest =>
          rw [hmoves, scoutLoop] at hv
          have hn1 : neg32 INT_MAX = -INT_MAX := neg32_eq _ (by decide) (by decide)
          have hn2 : neg32 INT_MIN = INT_MIN := by decide
          cases hs : scoutStep (fun move lo hi =>
              match childBoard b move player with
              | none => none
              | some child => negaScout fuel child (sub32 depth 1) lo hi (sub32 3 player))
              depth INT_MAX mv INT_MIN INT_MAX with
          | none => rw [hs] at hv; simp at hv
          | some a1 =>
            rw [hs] at hv
            simp only at hv
            have ha1 : INT_MIN < a1 ∧ a1 ≤ INT_MAX := by
              unfold scoutStep at hs
              simp only at hs
              cases hr : (match childBoard b mv player with
                | none => none
                | some child =>
                  negaScout fuel child (sub32 depth 1) (neg32 INT_MAX) (neg32 INT_MIN)
                    (sub32 3 player)) with
              | none => rw [hr] at hs; simp at hs
              | some r =>
                rw [hr] at hs
                simp only [true_or, if_true] at hs
                have hrg := hsearch mv _ _ r (by rw [hn1]; decide) (by rw [hn1]; decide)
                  (by rw [hn2]) (by rw [hn2]; decide) hr
                have hneg := neg32_eq r hrg.1 hrg.2
                rw [hneg] at hs
                have hgt : -r > INT_MIN := by unfold INT_MIN INT_MAX at *; omega
                rw [if_pos hgt] at hs
                simp only [Option.some.injEq] at hs
                subst hs
                unfold INT_MIN INT_MAX at *
                omega
            by_cases hcut : a1 ≥ INT_MAX
            · rw [if_pos hcut] at hv
              simp only [Option.some.injEq] at hv
              subst hv
              exact ha1
            · rw [if_neg hcut] at hv
              exact scoutLoop_good _ depth INT_MAX (le_refl _) hsearch rest a1 _ v ha1.1 ha1.2
                (Or.inr (by omega)) hv

/-! ## Best-move selection -/

theorem exists_forall₂ {α β : Type} (R : α → β → Prop) (l : List α)
    (h : ∀ a ∈ l, ∃ s, R a s) : ∃ ss : List β, List.Forall₂ R l ss := by
  induction l with
  | nil => exact ⟨[], List.Forall₂.nil⟩
  | cons a l ih =>
    obtain ⟨s, hs⟩ := h a (by simp)
    obtain ⟨ss, hss⟩ := ih fun a' ha' => h a' (by simp [ha'])
    exact ⟨s :: ss, List.Forall₂.cons hs hss⟩

/-- The selection loop keeps the first-seen maximum: either no score exceeds
the incoming best score and the incoming pair is returned, or the result is
the greatest score together with the first move that attains it. -/
theorem bestLoop_spec (search : Int × Int → Option Int) :
    ∀ (moves : List (Int × Int)) (scores : List Int) (bestScore : Int) (bestMove : Int × Int),
      List.Forall₂ (fun mv s => ∃ r, search mv = some r ∧ s = neg32 r) moves scores →
      (bestLoop search moves bestScore bestMove = some (bestScore, bestMove) ∧
        ∀ s ∈ scores, s ≤ bestScore) ∨
      ∃ (i : Nat) (mv : Int × Int) (s : Int),
        moves[i]? = some mv ∧ scores[i]? = some s ∧ bestScore < s ∧
        (∀ (j : Nat) (t : Int), scores[j]? = some t → t ≤ s) ∧
        (∀ (j : Nat) (t : Int), j < i → scores[j]? = some t → t < s) ∧
        bestLoop search moves bestScore bestMove = some (s, mv) := by
  intro moves scores bestScore bestMove h
  induction h generalizing bestScore bestMove with
  | nil => left; exact ⟨rfl, by simp⟩
  | @cons mv s moves scores hhead _ ih =>
    obtain ⟨r, hr, hs⟩ := hhead
    by_cases hgt : s > bestScore
    · have hloop : bestLoop search (mv :: moves) bestScore bestMove
          = bestLoop search moves s mv := by
        rw [bestLoop, hr]
        simp only
        rw [← hs, if_pos hgt]
      rw [hloop]
      rcases ih s mv with ⟨h1, h2⟩ | ⟨i, mv', s', g1, g2, g3, g4, g5, g6⟩
      · right
        refine ⟨0, mv, s, by simp, by simp, hgt, ?_, ?_, h1⟩
        · intro j t hj
          cases j with
          | zero => simp at hj; omega
          | succ j =>
            rw [List.getElem?_cons_succ] at hj
            exact h2 t (List.getElem?_mem hj)
        · intro j t hj; omega
      · right
        refine ⟨i + 1, mv', s', by simpa using g1, by simpa using g2, by omega, ?_, ?_, g6⟩
        · intro j t hj
          cases j with
          | zero => simp at hj; omega
          | succ j =>
            rw [List.getElem?_cons_succ] at hj
            exact g4 j t hj
        · intro j t hji hj
          cases j with
          | zero => simp at hj; omega
          | succ j =>
            rw [List.getElem?_cons_succ] at hj
            exact g5 j t (by omega) hj
    · have hloop : bestLoop search (mv :: moves) bestScore bestMove
          = bestLoop search moves bestScore bestMove := by
        rw [bestLoop, hr]
        simp only
        rw [← hs, if_neg hgt]
      rw [hloop]
      rcases ih bestScore bestMove with ⟨h1, h2⟩ | ⟨i, mv', s', g1, g2, g3, g4, g5, g6⟩
      · left
        refine ⟨h1, ?_⟩
        intro t ht
        rcases List.mem_cons.1 ht with rfl | ht
        · omega
        · exact h2 t ht
      · right
        refine ⟨i + 1, mv', s', by simpa using g1, by simpa using g2, g3, ?_, ?_, g6⟩
        · intro j t hj
          cases j with
          | zero => simp at hj; omega
          | succ j =>
            rw [List.getElem?_cons_succ] at hj
            exact g4 j t hj
        · intro j t hji hj
          cases j with
          | zero => simp at hj; omega
          | succ j =>
            rw [List.getElem?_cons_succ] at hj
            exact g5 j t (by omega) hj

theorem findBestMoveState_firstMax (fuel : Nat) (b : Board) (player depth : Int)
    (scores : List Int)
    (h : List.Forall₂ (fun m s => ∃ (child : Board) (v : Int),
        childBoard b m player = some child ∧
        negaScout fuel child (sub32 depth 1) INT_MIN INT_MAX (sub32 3 player) = some v ∧
        s = -v) (getValidMoves b player) scores)
    (hne : getValidMoves b player ≠ []) :
    ∃ (i : Nat) (mv : Int × Int) (s : Int),
      (getValidMoves b player)[i]? = some mv ∧ scores[i]? = some s ∧
      (∀ (j : Nat) (t : Int), scores[j]? = some t → t ≤ s) ∧
      (∀ (j : Nat) (t : Int), j < i → scores[j]? = some t → t < s) ∧
      findBestMoveState fuel b player depth = some (s, mv) := by
  have hgood : ∀ m s, (∃ (child : Board) (v : Int),
        childBoard b m player = some child ∧
        negaScout fuel child (sub32 depth 1) INT_MIN INT_MAX (sub32 3 player) = some v ∧
        s = -v) →
      (∃ r, (match childBoard b m player with
          | none => none
          | some child =>
            negaScout fuel child (sub32 depth 1) INT_MIN INT_MAX (sub32 3 player)) = some r ∧
        s = neg32 r) ∧ INT_MIN < s := by
    rintro m s ⟨child, v, hc, hv, hs⟩
    have hg := negaScout_full_good fuel child _ _ v hv
    refine ⟨⟨v, by rw [hc]; exact hv, by rw [neg32_eq v hg.1 hg.2]; exact hs⟩, ?_⟩
    unfold INT_MIN INT_MAX at *
    omega
  have h' := h.imp fun m s hms => (hgood m s hms).1
  rcases bestLoop_spec _ _ _ INT_MIN (0, 0) h' with ⟨-, h2⟩ | ⟨i, mv, s, g1, g2, -, g4, g5, g6⟩
  · exfalso
    cases hm : getValidMoves b player with
    | nil => exact hne hm
    | cons m rest =>
      rw [hm] at h
      cases h with
      | cons hhead _ =>
        have := (hgood _ _ hhead).2
        have := h2 _ (List.mem_cons_self _ _)
        omega
  · exact ⟨i, mv, s, g1, g2, g4, g5, g6⟩

/-- Claim C5. For every board, player in {Black, White} and depth `≥ 1` with
at least one legal move, and every bound on the nesting of calls that is at
least the depth, `findBestMove` returns a legal move: every child search
returns, and the move returned is the one at the least index that maximises
`-negaScout(child, depth - 1, INT_MIN, INT_MAX, opponent)` over the legal
moves in generator order. -/
theorem findBestMove_spec (fuel : Nat) (b : Board) (player depth : Int)
    (hp : player = BLACK ∨ player = WHITE) (hd1 : 1 ≤ depth) (hd2 : depth ≤ INT_MAX)
    (hfuel : depth ≤ fuel) (hmoves : getValidMoves b player ≠ []) :
    ∃ (scores : List Int) (i : Nat) (mv : Int × Int),
      List.Forall₂ (fun m s => ∃ (child : Board) (v : Int),
        childBoard b m player = some child ∧
        negaScout fuel child (depth - 1) INT_MIN INT_MAX (opponent player) = some v ∧
        s = -v) (getValidMoves b player) scores ∧
      IsFirstMax scores i ∧
      (getValidMoves b player)[i]? = some mv ∧
      mv ∈ getValidMoves b player ∧
      findBestMove fuel b player depth = some mv := by
  have hsub : sub32 depth 1 = depth - 1 := by
    unfold sub32
    apply wrap32_eq <;> simp only [INT_MIN, INT_MAX] at * <;> omega
  have hopp := sub32_three player hp
  obtain ⟨scores, hscores⟩ := exists_forall₂ (fun m s => ∃ (child : Board) (v : Int),
        childBoard b m player = some child ∧
        negaScout fuel child (depth - 1) INT_MIN INT_MAX (opponent player) = some v ∧
        s = -v) (getValidMoves b player) (by
    intro m hm
    obtain ⟨child, hchild⟩ := childBoard_some b m player
      ((mem_getValidMoves b player m).1 hm).1
    obtain ⟨v, hv⟩ := negaScout_some fuel child (depth - 1) INT_MIN INT_MAX (opponent player)
      (by omega) (by omega) (by omega)
    exact ⟨-v, child, v, hchild, hv, rfl⟩)
  obtain ⟨i, mv, s, g1, g2, g4, g5, g6⟩ :=
    findBestMoveState_firstMax fuel b player depth scores (by rw [hsub, hopp]; exact hscores)
      hmoves
  refine ⟨scores, i, mv, hscores, ⟨s, g2, g4, g5⟩, g1, List.getElem?_mem g1, ?_⟩
  rw [findBestMove, g6]
  rfl

set_option maxRecDepth 100000 in
/-- Witness for C5 on scenario S3, White to move, depth 3: the hypotheses hold
and the move returned is `(1, 0)`. -/
theorem findBestMove_spec_witness :
    (WHITE = BLACK ∨ WHITE = WHITE) ∧ (1 : Int) ≤ 3 ∧ (3 : Int) ≤ INT_MAX ∧
    (3 : Int) ≤ ((3 : Nat) : Int) ∧ getValidMoves scenarioS3 WHITE ≠ [] ∧
    findBestMove 3 scenarioS3 WHITE 3 = some (1, 0) ∧
    ∃ (scores : List Int) (i : Nat) (mv : Int × Int),
      List.Forall₂ (fun m s => ∃ (child : Board) (v : Int),
        childBoard scenarioS3 m WHITE = some child ∧
        negaScout 3 child (3 - 1) INT_MIN INT_MAX (opponent WHITE) = some v ∧
        s = -v) (getValidMoves scenarioS3 WHITE) scores ∧
      IsFirstMax scores i ∧
      (getValidMoves scenarioS3 WHITE)[i]? = some mv ∧
      mv ∈ getValidMoves scenarioS3 WHITE ∧
      findBestMove 3 scenarioS3 WHITE 3 = some mv :=
  ⟨Or.inr rfl, by decide, by decide, by decide, by decide, by decide,
    findBestMove_spec 3 scenarioS3 WHITE 3 (Or.inr rfl) (by decide) (by decide) (by decide)
      (by decide)⟩

/-! ## Agreement with plain negamax near the horizon -/

theorem getValidMoves_ne_nil_of_not_over (b : Board) (player : Int)
    (h : ¬ isGameOver b = true) : getValidMoves b player ≠ [] := by
  intro hnil
  apply h
  unfold isGameOver
  rw [getValidMoves_player b BLACK player, getValidMoves_player b WHITE player, hnil]
  rfl

theorem mapM_option_eq_some {α β : Type} (f : α → Option β) (g : α → β) (l : List α)
    (h : ∀ a ∈ l, f a = some (g a)) : l.mapM f = some (l.map g) := by
  induction l with
  | nil => rfl
  | cons a l ih =>
    rw [List.mapM_cons, h a (by simp), ih fun a' ha' => h a' (by simp [ha'])]
    rfl

theorem scoutLoop_leaf (search : Int × Int → Int → Int → Option Int) (depth : Int)
    (hdepth : depth ≤ 2) (e : Int × Int → Int) (hbound : ∀ mv, -36 ≤ e mv ∧ e mv ≤ 36) :
    ∀ (moves : List (Int × Int)) (alpha b : Int),
      (∀ mv ∈ moves, ∀ lo hi : Int, search mv lo hi = some (e mv)) →
      alpha < INT_MAX →
      scoutLoop search depth INT_MAX moves alpha b
        = some ((moves.map fun mv => - e mv).foldl max alpha) := by
  intro moves
  induction moves with
  | nil => intro alpha b _ _; rfl
  | cons mv rest ih =>
    intro alpha b hs ha
    have hb := hbound mv
    have hneg : neg32 (e mv) = - e mv :=
      neg32_eq _ (by unfold INT_MIN; omega) (by unfold INT_MAX; omega)
    have hstep : scoutStep search depth INT_MAX mv alpha b = some (max alpha (- e mv)) := by
      unfold scoutStep
      rw [hs mv (by simp)]
      simp only [hneg, hdepth, or_true, if_true]
      by_cases hgt : - e mv > alpha
      · rw [if_pos hgt, max_eq_right (le_of_lt hgt)]
      · rw [if_neg hgt, max_eq_left (not_lt.1 hgt)]
    have hlt : max alpha (- e mv) < INT_MAX := by
      apply max_lt ha
      unfold INT_MAX
      omega
    rw [scoutLoop, hstep]
    simp only
    rw [if_neg (not_le.2 hlt), ih _ _ (fun mv' hmv' => hs mv' (by simp [hmv'])) hlt]
    rfl

theorem leaf_bounds (o : Option Board) (player : Int) :
    -36 ≤ (match o with
      | none => (0 : Int)
      | some child => evaluate child player) ∧
    (match o with
      | none => (0 : Int)
      | some child => evaluate child player) ≤ 36 := by
  cases o with
  | none => simp
  | some child => exact evaluate_bounds child _

theorem negaScout_zero (fuel : Nat) (b : Board) (alpha beta player : Int) :
    negaScout (fuel + 1) b 0 alpha beta player = some (evaluate b player) := by
  rw [negaScout_succ]
  simp

/-- At depth 1 with the full window the search is plain negamax. -/
theorem negaScout_one (fuel : Nat) (b : Board) (player : Int)
    (hp : player = BLACK ∨ player = WHITE) :
    negaScout (fuel + 2) b 1 INT_MIN INT_MAX player = negamax 1 b player ∧
    ∃ v, negamax 1 b player = some v := by
  have hopp := sub32_three player hp
  have hsub : sub32 1 1 = 0 := by decide
  rw [negaScout_succ, negamax]
  by_cases hover : isGameOver b = true
  · simp [hover]
  · have hne := getValidMoves_ne_nil_of_not_over b player hover
    have hemp : ¬ (getValidMoves b player).isEmpty = true := by
      rw [List.isEmpty_iff]; exact hne
    have h10 : ¬ ((1 : Int) = 0 ∨ isGameOver b = true) := by
      rintro (h | h)
      · omega
      · exact hover h
    rw [if_neg h10, if_neg hemp, if_neg hover]
    have hleaf := scoutLoop_leaf
      (fun move lo hi =>
        match childBoard b move player with
        | none => none
        | some child => negaScout (fuel + 1) child (sub32 1 1) lo hi (sub32 3 player))
      1 (by omega)
      (fun mv => match childBoard b mv player with
        | none => 0
        | some child => evaluate child (opponent player))
      (fun mv => leaf_bounds (childBoard b mv player) _)
      (getValidMoves b player) INT_MIN INT_MAX
      (by
        intro mv hmv lo hi
        obtain ⟨child, hchild⟩ := childBoard_some b mv player
          ((mem_getValidMoves b player mv).1 hmv).1
        simp only [hchild, hsub, hopp]
        exact negaScout_zero fuel child lo hi _)
      (by decide)
    rw [hleaf]
    have hmap := mapM_option_eq_some
      (fun move =>
        match childBoard b move player with
        | none => none
        | some child => (negamax 0 child (opponent player)).map fun v => -v)
      (fun mv => - (match childBoard b mv player with
        | none => 0
        | some child => evaluate child (opponent player)))
      (getValidMoves b player)
      (by
        intro mv hmv
        obtain ⟨child, hchild⟩ := childBoard_some b mv player
          ((mem_getValidMoves b player mv).1 hmv).1
        simp only [hchild, negamax, Option.map_some'])
    rw [hmap]
    simp only [Option.map_some']
    refine ⟨?_, _, rfl⟩
    cases hm : getValidMoves b player with
    | nil => exact absurd hm hne
    | cons mv rest =>
      simp only [List.map_cons, List.foldl_cons, maxScore]
      congr 2
      apply max_eq_right
      have : -36 ≤ (match childBoard b mv player with
        | none => (0 : Int)
        | some child => evaluate child (opponent player)) ∧
        (match childBoard b mv player with
        | none => (0 : Int)
        | some child => evaluate child (opponent player)) ≤ 36 :=
        leaf_bounds (childBoard b mv player) _
      unfold INT_MIN
      omega

/-- Claim C6, as amended. For every board, player in {Black, White} and depth
`d` in {0, 1}, and every bound on the nesting of calls above `d`, `negaScout`
with the window `(INT_MIN, INT_MAX)` returns the value of the plain negamax
reference, and that reference returns a value. -/
theorem negaScout_eq_negamax_shallow (fuel : Nat) (b : Board) (player : Int) (d : Nat)
    (hp : player = BLACK ∨ player = WHITE) (hd : d ≤ 1) (hfuel : d < fuel) :
    negaScout fuel b d INT_MIN INT_MAX player = negamax d b player ∧
    ∃ v, negamax d b player = some v := by
  rcases Nat.le_one_iff_eq_zero_or_eq_one.1 hd with rfl | rfl
  · obtain ⟨f, rfl⟩ : ∃ f, fuel = f + 1 := ⟨fuel - 1, by omega⟩
    refine ⟨?_, _, rfl⟩
    rw [Nat.cast_zero, negaScout_zero]
    rfl
  · obtain ⟨f, rfl⟩ : ∃ f, fuel = f + 2 := ⟨fuel - 2, by omega⟩
    rw [Nat.cast_one]
    exact negaScout_one f b player hp

/-- Witness for the amended C6 on scenario S6, White to move, depth 1. -/
theorem negaScout_eq_negamax_shallow_witness :
    (WHITE = BLACK ∨ WHITE = WHITE) ∧ 1 ≤ 1 ∧ 1 < 2 ∧
    negaScout 2 scenarioS6 (1 : Nat) INT_MIN INT_MAX WHITE = negamax 1 scenarioS6 WHITE ∧
    ∃ v, negamax 1 scenarioS6 WHITE = some v :=
  ⟨Or.inr rfl, le_refl _, by decide,
    negaScout_eq_negamax_shallow 2 scenarioS6 WHITE 1 (Or.inr rfl) (le_refl _) (by decide)⟩

set_option maxRecDepth 100000 in
/-- Counterexample to C6 as stated.  On `twoEmpty` with Black to move and
depth 2 the search returns 33 while plain negamax gives 34; on `fourEmpty`
with Black to move the search returns 33 at depth 3 and 26 at depth 4 while
plain negamax gives 31 and 28. -/
theorem negaScout_ne_negamax_deep :
    (negaScout 3 twoEmpty 2 INT_MIN INT_MAX BLACK = some 33 ∧
      negamax 2 twoEmpty BLACK = some 34) ∧
    (negaScout 4 fourEmpty 3 INT_MIN INT_MAX BLACK = some 33 ∧
      negamax 3 fourEmpty BLACK = some 31) ∧
    (negaScout 5 fourEmpty 4 INT_MIN INT_MAX BLACK = some 26 ∧
      negamax 4 fourEmpty BLACK = some 28) := by
  decide

/-- Claim C7. For every board and player in {Black, White} with at least one
legal move, and every bound of at least 2 on the nesting of calls,
`findBestMove` at depth 2 returns the first legal move in generator order
that maximises minus the plain negamax value of its child at depth 1 for the
opponent, and the best score it holds for that move is that reference
value. -/
theorem findBestMove_depth_two (fuel : Nat) (b : Board) (player : Int)
    (hp : player = BLACK ∨ player = WHITE) (hfuel : 2 ≤ fuel)
    (hmoves : getValidMoves b player ≠ []) :
    ∃ (refScores : List Int) (i : Nat) (mv : Int × Int) (s : Int),
      List.Forall₂ (fun m t => ∃ (child : Board) (v : Int),
        childBoard b m player = some child ∧
        negamax 1 child (opponent player) = some v ∧ t = -v)
        (getValidMoves b player) refScores ∧
      IsFirstMax refScores i ∧
      (getValidMoves b player)[i]? = some mv ∧
      refScores[i]? = some s ∧
      findBestMoveState fuel b player 2 = some (s, mv) ∧
      findBestMove fuel b player 2 = some mv := by
  obtain ⟨f, rfl⟩ : ∃ f, fuel = f + 2 := ⟨fuel - 2, by omega⟩
  have hsub : sub32 2 1 = 1 := by decide
  have hopp := sub32_three player hp
  have hop := opponent_player player hp
  obtain ⟨scores, hscores⟩ := exists_forall₂ (fun m t => ∃ (child : Board) (v : Int),
        childBoard b m player = some child ∧
        negamax 1 child (opponent player) = some v ∧ t = -v)
      (getValidMoves b player) (by
    intro m hm
    obtain ⟨child, hchild⟩ := childBoard_some b m player
      ((mem_getValidMoves b player m).1 hm).1
    obtain ⟨v, hv⟩ := (negaScout_one f child (opponent player) hop).2
    exact ⟨-v, child, v, hchild, hv, rfl⟩)
  have hsearch : List.Forall₂ (fun m t => ∃ (child : Board) (v : Int),
        childBoard b m player = some child ∧
        negaScout (f + 2) child (sub32 2 1) INT_MIN INT_MAX (sub32 3 player) = some v ∧
        t = -v) (getValidMoves b player) scores := by
    refine hscores.imp ?_
    rintro m t ⟨child, v, hc, hv, ht⟩
    refine ⟨child, v, hc, ?_, ht⟩
    rw [hsub, hopp, (negaScout_one f child (opponent player) hop).1]
    exact hv
  obtain ⟨i, mv, s, g1, g2, g4, g5, g6⟩ :=
    findBestMoveState_firstMax (f + 2) b player 2 scores hsearch hmoves
  refine ⟨scores, i, mv, s, hscores, ⟨s, g2, g4, g5⟩, g1, g2, g6, ?_⟩
  rw [findBestMove, g6]
  rfl

set_option maxRecDepth 100000 in
/-- Witness for C7 on scenario S6, White to move: the hypotheses hold, the
selector ends with best score 2 and move `(1, 1)`, and that pair is the
first-seen maximum of the reference scores. -/
theorem findBestMove_depth_two_witness :
    (WHITE = BLACK ∨ WHITE = WHITE) ∧ 2 ≤ 2 ∧ getValidMoves scenarioS6 WHITE ≠ [] ∧
    findBestMoveState 2 scenarioS6 WHITE 2 = some (2, (1, 1)) ∧
    ∃ (refScores : List Int) (i : Nat) (mv : Int × Int) (s : Int),
      List.Forall₂ (fun m t => ∃ (child : Board) (v : Int),
        childBoard scenarioS6 m WHITE = some child ∧
        negamax 1 child (opponent WHITE) = some v ∧ t = -v)
        (getValidMoves scenarioS6 WHITE) refScores ∧
      IsFirstMax refScores i ∧
      (getValidMoves scenarioS6 WHITE)[i]? = some mv ∧
      refScores[i]? = some s ∧
      findBestMoveState 2 scenarioS6 WHITE 2 = some (s, mv) ∧
      findBestMove 2 scenarioS6 WHITE 2 = some mv :=
  ⟨Or.inr rfl, le_refl _, by decide, by decide,
    findBestMove_depth_two 2 scenarioS6 WHITE (Or.inr rfl) (le_refl _) (by decide)⟩

/-! ## The pass branch -/

/-- A player without a legal move is at a finished game: the move generator
does not depend on the player, so the search returns the static evaluation
and never reaches its pass branch. -/
theorem negaScout_no_moves (fuel : Nat) (b : Board) (depth alpha beta player : Int)
    (h : getValidMoves b player = []) :
    isGameOver b = true ∧
    negaScout (fuel + 1) b depth alpha beta player = some (evaluate b player) := by
  have hover : isGameOver b = true := by
    unfold isGameOver
    rw [getValidMoves_player b BLACK player, getValidMoves_player b WHITE player, h]
    rfl
  refine ⟨hover, ?_⟩
  rw [negaScout_succ, if_pos (Or.inr hover)]

/-- No board gives one player a legal move and the other none. -/
theorem no_pass_position (b : Board) (p q : Int) :
    ¬ (getValidMoves b p = [] ∧ getValidMoves b q ≠ []) := by
  rintro ⟨h1, h2⟩
  rw [getValidMoves_player b q p] at h2
  exact h2 h1

/-! ## Independence of the bound on the nesting of calls -/

theorem scoutStep_mono (s1 s2 : Int × Int → Int → Int → Option Int) (depth beta : Int)
    (mv : Int × Int)
    (h : ∀ (lo hi r : Int), s1 mv lo hi = some r → s2 mv lo hi = some r)
    (alpha b a1 : Int) (h1 : scoutStep s1 depth beta mv alpha b = some a1) :
    scoutStep s2 depth beta mv alpha b = some a1 := by
  unfold scoutStep at h1 ⊢
  cases hr : s1 mv (neg32 b) (neg32 alpha) with
  | none => rw [hr] at h1; simp at h1
  | some r =>
    rw [hr] at h1
    rw [h _ _ r hr]
    simp only at h1 ⊢
    by_cases hgt : neg32 r > alpha
    · rw [if_pos hgt] at h1 ⊢
      by_cases hfirst : b = beta ∨ depth ≤ 2
      · rw [if_pos hfirst] at h1 ⊢
        exact h1
      · rw [if_neg hfirst] at h1 ⊢
        cases hr2 : s1 mv (neg32 beta) (neg32 (neg32 r)) with
        | none => rw [hr2] at h1; simp at h1
        | some r2 =>
          rw [hr2] at h1
          rw [h _ _ r2 hr2]
          exact h1
    · rw [if_neg hgt] at h1 ⊢
      exact h1

theorem scoutLoop_mono (s1 s2 : Int × Int → Int → Int → Option Int) (depth beta : Int) :
    ∀ (moves : List (Int × Int)),
      (∀ mv ∈ moves, ∀ (lo hi r : Int), s1 mv lo hi = some r → s2 mv lo hi = some r) →
      ∀ (alpha b v : Int), scoutLoop s1 depth beta moves alpha b = some v →
        scoutLoop s2 depth beta moves alpha b = some v := by
  intro moves
  induction moves with
  | nil => intro _ alpha b v h; exact h
  | cons mv rest ih =>
    intro hs alpha b v h
    rw [scoutLoop] at h ⊢
    cases hstep : scoutStep s1 depth beta mv alpha b with
    | none => rw [hstep] at h; simp at h
    | some a1 =>
      rw [hstep] at h
      rw [scoutStep_mono s1 s2 depth beta mv (hs mv (by simp)) alpha b a1 hstep]
      simp only at h ⊢
      by_cases hcut : a1 ≥ beta
      · rw [if_pos hcut] at h ⊢
        exact h
      · rw [if_neg hcut] at h ⊢
        exact ih (fun mv' hmv' => hs mv' (by simp [hmv'])) _ _ v h

/-- Once the search returns a value, it returns the same value under every
larger bound on the nesting of calls. -/
theorem negaScout_mono :
    ∀ (fuel extra : Nat) (b : Board) (depth alpha beta player v : Int),
      negaScout fuel b depth alpha beta player = some v →
      negaScout (fuel + extra) b depth alpha beta player = some v := by
  intro fuel
  induction fuel with
  | zero => intro extra b depth alpha beta player v h; simp [negaScout] at h
  | succ fuel ih =>
    intro extra b depth alpha beta player v h
    have hf : fuel + 1 + extra = (fuel + extra) + 1 := by omega
    rw [hf]
    rw [negaScout_succ] at h ⊢
    by_cases hterm : depth = 0 ∨ isGameOver b = true
    · rw [if_pos hterm] at h ⊢
      exact h
    · rw [if_neg hterm] at h ⊢
      by_cases hemp : (getValidMoves b player).isEmpty = true
      · rw [if_pos hemp] at h ⊢
        exact ih extra b _ _ _ _ v h
      · rw [if_neg hemp] at h ⊢
        refine scoutLoop_mono _ _ depth beta _ ?_ _ _ v h
        intro mv _ lo hi r hr
        cases hc : childBoard b mv player with
        | none => rw [hc] at hr; simp at hr
        | some child =>
          rw [hc] at hr
          exact ih extra child _ _ _ _ r hr

/-! ## Best move without a legal move -/

/-- Claim C11. For every board on which the side to move has no legal move,
and for every depth, `findBestMove` returns the coordinate `(0, 0)`; it does
so under every bound on the nesting of search calls, the bound 0 that allows
no search call included, and whatever the search function of the selection
loop is. -/
theorem findBestMove_no_moves (fuel : Nat) (b : Board) (player depth : Int)
    (h : getValidMoves b player = []) :
    findBestMove fuel b player depth = some (0, 0) ∧
    findBestMove 0 b player depth = some (0, 0) ∧
    ∀ search : Int × Int → Option Int,
      bestLoop search (getValidMoves b player) INT_MIN (0, 0) = some (INT_MIN, (0, 0)) := by
  refine ⟨?_, ?_, ?_⟩
  · simp [findBestMove, findBestMoveState, h, bestLoop]
  · simp [findBestMove, findBestMoveState, h, bestLoop]
  · intro search
    rw [h]
    rfl

/-- Witness for C11 on the board without any stone, for Black at depth 3. -/
theorem findBestMove_no_moves_witness :
    getValidMoves blank BLACK = [] ∧
    findBestMove 5 blank BLACK 3 = some (0, 0) ∧
    findBestMove 0 blank BLACK 3 = some (0, 0) ∧
    ∀ search : Int × Int → Option Int,
      bestLoop search (getValidMoves blank BLACK) INT_MIN (0, 0) = some (INT_MIN, (0, 0)) :=
  ⟨by decide, findBestMove_no_moves 5 blank BLACK 3 (by decide)⟩

/-! ## The move generator does not depend on the player -/

theorem isGameOver_iff (b : Board) (p : Int) :
    isGameOver b = true ↔ getValidMoves b p = [] := by
  unfold isGameOver
  rw [getValidMoves_player b BLACK p, getValidMoves_player b WHITE p]
  cases getValidMoves b p <;> simp

/-- Claim C14. For every board the legal moves of Black and of White are the
same list; the game is over if and only if either single player has no legal
move; no board gives one player a legal move and the other none; and the pass
branch of `negaScout`, taken when the game is not over and the side to move
has no legal move, is never taken: the search equals its definition with that
branch removed. -/
theorem legal_moves_player_independent (b : Board) :
    getValidMoves b BLACK = getValidMoves b WHITE ∧
    (∀ p : Int, isGameOver b = true ↔ getValidMoves b p = []) ∧
    (∀ p q : Int, ¬ (getValidMoves b p ≠ [] ∧ getValidMoves b q = [])) ∧
    (∀ depth p : Int,
      ¬ (¬ (depth = 0 ∨ isGameOver b = true) ∧ (getValidMoves b p).isEmpty = true)) ∧
    (∀ (fuel : Nat) (depth alpha beta p : Int),
      negaScout (fuel + 1) b depth alpha beta p =
        if depth = 0 ∨ isGameOver b = true then some (evaluate b p)
        else
          scoutLoop
            (fun move lo hi =>
              match childBoard b move p with
              | none => none
              | some child => negaScout fuel child (sub32 depth 1) lo hi (sub32 3 p))
            depth beta (getValidMoves b p) alpha beta) := by
  have hpass : ∀ depth p : Int,
      ¬ (¬ (depth = 0 ∨ isGameOver b = true) ∧ (getValidMoves b p).isEmpty = true) := by
    rintro depth p ⟨h1, h2⟩
    apply h1
    right
    rw [isGameOver_iff b p]
    exact List.isEmpty_iff.1 h2
  refine ⟨getValidMoves_player b BLACK WHITE, isGameOver_iff b, ?_, hpass, ?_⟩
  · rintro p q ⟨h1, h2⟩
    rw [getValidMoves_player b p q] at h1
    exact h1 h2
  · intro fuel depth alpha beta p
    rw [negaScout_succ]
    by_cases hterm : depth = 0 ∨ isGameOver b = true
    · rw [if_pos hterm, if_pos hterm]
    · rw [if_neg hterm, if_neg hterm]
      have : ¬ (getValidMoves b p).isEmpty = true := fun h => hpass depth p ⟨hterm, h⟩
      rw [if_neg this]

/-! ## Terminal positions -/

theorem getValidMoves_eq_nil_iff (b : Board) (p : Int) :
    getValidMoves b p = [] ↔
      ∀ i j : Int, isValidMove i j = true → b i j = EMPTY →
        ¬ ∃ i' j' : Int, max |i' - i| |j' - j| = 1 ∧ isValidMove i' j' = true ∧ b i' j' ≠ EMPTY := by
  rw [List.eq_nil_iff_forall_not_mem]
  constructor
  · intro h i j hv he hn
    exact h (i, j) ((mem_getValidMoves b p (i, j)).2
      ⟨hv, (isEmpty_iff b i j).2 he, (hasNeighbor_iff b i j).2 hn⟩)
  · intro h c hc
    obtain ⟨hv, he, hn⟩ := (mem_getValidMoves b p c).1 hc
    exact h c.1 c.2 hv ((isEmpty_iff b _ _).1 he) ((hasNeighbor_iff b _ _).1 hn)

/-- When no empty cell of the board touches a stone, the cells of the board
that follow a stone along a line are stones too. -/
theorem occupied_line (b : Board)
    (hno : ∀ i j : Int, isValidMove i j = true → b i j = EMPTY →
      ¬ ∃ i' j' : Int, max |i' - i| |j' - j| = 1 ∧ isValidMove i' j' = true ∧ b i' j' ≠ EMPTY)
    (dx dy : Int) (hd : IsDirection dx dy) (i j : Int) :
    ∀ n : Nat, (∀ t : Nat, t ≤ n → isValidMove (i + t * dx) (j + t * dy) = true) →
      b i j ≠ EMPTY → b (i + n * dx) (j + n * dy) ≠ EMPTY := by
  intro n
  induction n with
  | zero => intro _ h; simpa using h
  | succ n ih =>
    intro hin hocc hemp
    have hprev := ih (fun t ht => hin t (by omega)) hocc
    refine hno _ _ (hin (n + 1) (le_refl _)) hemp
      ⟨i + n * dx, j + n * dy, ?_, hin n (by omega), hprev⟩
    have e1 : i + (n : Int) * dx - (i + ((n + 1 : Nat) : Int) * dx) = -dx := by
      push_cast; ring
    have e2 : j + (n : Int) * dy - (j + ((n + 1 : Nat) : Int) * dy) = -dy := by
      push_cast; ring
    rw [e1, e2]
    obtain ⟨hx, hy, h0⟩ := hd
    rcases hx with rfl | rfl | rfl <;> rcases hy with rfl | rfl | rfl <;> simp at h0 ⊢

theorem occupied_column (b : Board)
    (hno : ∀ i j : Int, isValidMove i j = true → b i j = EMPTY →
      ¬ ∃ i' j' : Int, max |i' - i| |j' - j| = 1 ∧ isValidMove i' j' = true ∧ b i' j' ≠ EMPTY)
    (a c e : Int) (hac : isValidMove a c = true) (hec : isValidMove e c = true)
    (hocc : b a c ≠ EMPTY) : b e c ≠ EMPTY := by
  rw [isValidMove_iff] at hac hec
  rcases le_total a e with hle | hle
  · have := occupied_line b hno 1 0 (by simp [IsDirection]) a c (e - a).toNat
      (by
        intro t ht
        rw [isValidMove_iff]
        simp only [mul_one, mul_zero, add_zero]
        omega) hocc
    have he : a + ((e - a).toNat : Int) * 1 = e := by omega
    have hc : c + ((e - a).toNat : Int) * 0 = c := by simp
    rw [he, hc] at this
    exact this
  · have := occupied_line b hno (-1) 0 (by simp [IsDirection]) a c (a - e).toNat
      (by
        intro t ht
        rw [isValidMove_iff]
        simp only [mul_neg, mul_one, mul_zero, add_zero]
        omega) hocc
    have he : a + ((a - e).toNat : Int) * -1 = e := by omega
    have hc : c + ((a - e).toNat : Int) * 0 = c := by simp
    rw [he, hc] at this
    exact this

theorem occupied_row (b : Board)
    (hno : ∀ i j : Int, isValidMove i j = true → b i j = EMPTY →
      ¬ ∃ i' j' : Int, max |i' - i| |j' - j| = 1 ∧ isValidMove i' j' = true ∧ b i' j' ≠ EMPTY)
    (a c f : Int) (hac : isValidMove a c = true) (haf : isValidMove a f = true)
    (hocc : b a c ≠ EMPTY) : b a f ≠ EMPTY := by
  rw [isValidMove_iff] at hac haf
  rcases le_total c f with hle | hle
  · have := occupied_line b hno 0 1 (by simp [IsDirection]) a c (f - c).toNat
      (by
        intro t ht
        rw [isValidMove_iff]
        simp only [mul_one, mul_zero, add_zero]
        omega) hocc
    have he : c + ((f - c).toNat : Int) * 1 = f := by omega
    have hc : a + ((f - c).toNat : Int) * 0 = a := by simp
    rw [he, hc] at this
    exact this
  · have := occupied_line b hno 0 (-1) (by simp [IsDirection]) a c (c - f).toNat
      (by
        intro t ht
        rw [isValidMove_iff]
        simp only [mul_neg, mul_one, mul_zero, add_zero]
        omega) hocc
    have he : c + ((c - f).toNat : Int) * -1 = f := by omega
    have hc : a + ((c - f).toNat : Int) * 0 = a := by simp
    rw [he, hc] at this
    exact this

/-- Claim C15. For every board, `isGameOver` is true if and only if no cell of
the board is empty or every cell of the board is empty; on a board with at
least one stone and at least one empty cell some empty cell touches a stone,
so every player has a legal move. -/
theorem isGameOver_iff_full_or_empty (b : Board) :
    (isGameOver b = true ↔
      (∀ i j : Int, isValidMove i j = true → b i j ≠ EMPTY) ∨
      (∀ i j : Int, isValidMove i j = true → b i j = EMPTY)) ∧
    ((∃ i j : Int, isValidMove i j = true ∧ b i j ≠ EMPTY) →
      (∃ i j : Int, isValidMove i j = true ∧ b i j = EMPTY) →
      (∃ i j : Int, isValidMove i j = true ∧ b i j = EMPTY ∧
        ∃ i' j' : Int, max |i' - i| |j' - j| = 1 ∧ isValidMove i' j' = true ∧
          b i' j' ≠ EMPTY) ∧
      ∀ p : Int, getValidMoves b p ≠ []) := by
  have hfwd : getValidMoves b BLACK = [] →
      (∀ i j : Int, isValidMove i j = true → b i j ≠ EMPTY) ∨
      (∀ i j : Int, isValidMove i j = true → b i j = EMPTY) := by
    intro hnil
    have hno := (getValidMoves_eq_nil_iff b BLACK).1 hnil
    by_cases hst : ∃ a c : Int, isValidMove a c = true ∧ b a c ≠ EMPTY
    · left
      obtain ⟨a, c, hac, hocc⟩ := hst
      intro i j hij
      have hic : isValidMove i c = true := by
        rw [isValidMove_iff] at hac hij ⊢
        omega
      exact occupied_row b hno i c j hic hij (occupied_column b hno a c i hac hic hocc)
    · right
      intro i j hij
      by_contra hne
      exact hst ⟨i, j, hij, hne⟩
  have hbwd : ((∀ i j : Int, isValidMove i j = true → b i j ≠ EMPTY) ∨
      (∀ i j : Int, isValidMove i j = true → b i j = EMPTY)) → getValidMoves b BLACK = [] := by
    intro h
    rw [getValidMoves_eq_nil_iff]
    rcases h with h | h
    · intro i j hv he _
      exact h i j hv he
    · rintro i j _ _ ⟨i', j', _, hv', hocc⟩
      exact hocc (h i' j' hv')
  refine ⟨?_, ?_⟩
  · rw [isGameOver_iff b BLACK]
    exact ⟨hfwd, hbwd⟩
  · rintro ⟨a, c, hac, hocc⟩ ⟨e, f, hef, hemp⟩
    have hne : getValidMoves b BLACK ≠ [] := by
      intro hnil
      rcases hfwd hnil with h | h
      · exact h e f hef hemp
      · exact hocc (h a c hac)
    refine ⟨?_, fun p => by rw [getValidMoves_player b p BLACK]; exact hne⟩
    obtain ⟨m, hm⟩ := List.exists_mem_of_ne_nil _ hne
    obtain ⟨hv, he, hn⟩ := (mem_getValidMoves b BLACK m).1 hm
    exact ⟨m.1, m.2, hv, (isEmpty_iff b _ _).1 he, (hasNeighbor_iff b _ _).1 hn⟩

/-! ## Flipping twice -/

theorem flipTiles_cells (b : Board) (player : Int) {x y : Int} (hin : isValidMove x y = true) :
    ∃ b1 : Board, flipTiles b x y player = some b1 ∧
      ∀ i j : Int,
        ((∃ d ∈ directions, CapturedDir b x y player d.1 d.2 i j) → b1 i j = player) ∧
        ((¬ ∃ d ∈ directions, CapturedDir b x y player d.1 d.2 i j) → b1 i j = b i j) := by
  rw [flipTiles_eq_flipDirs]
  exact flipDirs_spec b player hin directions (List.Perm.refl _)

theorem CapturedDir_first (b : Board) (x y player dx dy i j : Int)
    (h : CapturedDir b x y player dx dy i j) :
    CapturedDir b x y player dx dy (x + ((1 : Nat) : Int) * dx) (y + ((1 : Nat) : Int) * dy) := by
  obtain ⟨k, t, h1, h2, -, -, h5, h6, h7⟩ := h
  exact ⟨k, 1, le_refl _, by omega, rfl, rfl, h5, h6, h7⟩

/-- After a flip no direction holds a capturable run any more. -/
theorem no_recapture (b b1 : Board) (player : Int) {x y : Int}
    (hcells : ∀ i j : Int,
      ((∃ d ∈ directions, CapturedDir b x y player d.1 d.2 i j) → b1 i j = player) ∧
      ((¬ ∃ d ∈ directions, CapturedDir b x y player d.1 d.2 i j) → b1 i j = b i j))
    (d : Int × Int) (hd : d ∈ directions) (i j : Int) :
    ¬ CapturedDir b1 x y player d.1 d.2 i j := by
  intro hcap
  have hfirst := CapturedDir_first b1 x y player d.1 d.2 i j hcap
  -- the first cell of the run does not hold `player` after the flip
  have hne : b1 (x + ((1 : Nat) : Int) * d.1) (y + ((1 : Nat) : Int) * d.2) ≠ player := by
    obtain ⟨k, t, h1, h2, -, -, h5, -, -⟩ := hcap
    exact ((continues_iff b1 player _ _).1 (h5 1 (le_refl _) (by omega))).2.2
  have hnot1 : ¬ ∃ e ∈ directions, CapturedDir b x y player e.1 e.2
      (x + ((1 : Nat) : Int) * d.1) (y + ((1 : Nat) : Int) * d.2) :=
    fun h => hne ((hcells _ _).1 h)
  -- hence no cell of this ray was captured, and the ray is as before the flip
  have hray : ∀ s : Nat, 1 ≤ s →
      b1 (x + s * d.1) (y + s * d.2) = b (x + s * d.1) (y + s * d.2) := by
    intro s hs
    apply (hcells _ _).2
    rintro ⟨e, he, hc⟩
    by_cases hde : (d.1, d.2) = (e.1, e.2)
    · have hde' : e = d := Prod.ext (by simpa using (congrArg Prod.fst hde).symm)
        (by simpa using (congrArg Prod.snd hde).symm)
      subst hde'
      exact hnot1 ⟨e, he, CapturedDir_first b x y player e.1 e.2 _ _ hc⟩
    · obtain ⟨k, t, h1, h2, h3, h4, -⟩ := hc
      exact ray_disjoint ((mem_directions d).1 hd) ((mem_directions e).1 he) hde s t hs h1
        ⟨h3, h4⟩
  exact hnot1 ⟨d, hd, CapturedDir_congr b1 b x y player d.1 d.2 _ _ hray hfirst⟩

/-- Claim C16. For every board, in-bounds cell `(x, y)` and player, `flipTiles`
is idempotent: the call returns a board, and the same call on that board
returns it unchanged. -/
theorem flipTiles_idempotent (b : Board) (x y player : Int) (hin : isValidMove x y = true) :
    ∃ b1 : Board, flipTiles b x y player = some b1 ∧ flipTiles b1 x y player = some b1 := by
  obtain ⟨b1, hb1, hcells⟩ := flipTiles_cells b player hin
  obtain ⟨b2, hb2, hcells2⟩ := flipTiles_cells b1 player hin
  refine ⟨b1, hb1, ?_⟩
  rw [hb2]
  congr 1
  funext i j
  apply (hcells2 i j).2
  rintro ⟨d, hd, hc⟩
  exact no_recapture b b1 player hcells d hd i j hc

/-- Witness for C16 on scenario S2: the flip at `(3, 4)` for White turns the
row into four white stones, and flipping again changes nothing. -/
theorem flipTiles_idempotent_witness :
    isValidMove 3 4 = true ∧
    ((flipTiles scenarioS2 3 4 WHITE).bind fun b1 => flipTiles b1 3 4 WHITE).map
      (fun b2 => [b2 3 1, b2 3 2, b2 3 3, b2 3 4]) = some [WHITE, WHITE, WHITE, WHITE] ∧
    ∃ b1 : Board, flipTiles scenarioS2 3 4 WHITE = some b1 ∧
      flipTiles b1 3 4 WHITE = some b1 :=
  ⟨by decide, by decide, flipTiles_idempotent scenarioS2 3 4 WHITE (by decide)⟩

/-! ## The child position -/

theorem makeMove_of_mem (b : Board) (player : Int) (m : Int × Int)
    (hm : m ∈ getValidMoves b player) :
    isValidMove m.1 m.2 = true ∧ b m.1 m.2 = EMPTY ∧
    (makeMove b m.1 m.2 player).2 = setCell b m.1 m.2 player := by
  obtain ⟨hv, he, hn⟩ := (mem_getValidMoves b player m).1 hm
  refine ⟨hv, (isEmpty_iff b _ _).1 he, ?_⟩
  rw [makeMove_snd, makeMove_fst, he, hn]
  rfl

/-- The child position of a legal move: the placed stone and the captured
cells hold `player`, every other cell is as before. -/
theorem childBoard_cells (b : Board) (player : Int) (m : Int × Int)
    (hm : m ∈ getValidMoves b player) :
    ∃ child : Board, childBoard b m player = some child ∧
      ∀ i j : Int,
        ((∃ d ∈ directions,
            CapturedDir (setCell b m.1 m.2 player) m.1 m.2 player d.1 d.2 i j) →
          child i j = player) ∧
        ((¬ ∃ d ∈ directions,
            CapturedDir (setCell b m.1 m.2 player) m.1 m.2 player d.1 d.2 i j) →
          child i j = setCell b m.1 m.2 player i j) := by
  obtain ⟨hv, -, hplaced⟩ := makeMove_of_mem b player m hm
  unfold childBoard
  rw [hplaced]
  exact flipTiles_cells _ player hv

theorem CapturedDir_occupied (b : Board) (x y player dx dy i j : Int)
    (h : CapturedDir b x y player dx dy i j) :
    isValidMove i j = true ∧ b i j ≠ EMPTY ∧ b i j ≠ player := by
  obtain ⟨k, t, h1, h2, h3, h4, h5, -, -⟩ := h
  rw [h3, h4]
  exact (continues_iff b player _ _).1 (h5 t h1 h2)

/-- A cell of the child position is empty exactly when it was empty before and
is not the cell of the move. -/
theorem childBoard_empty_iff (b : Board) (player : Int) (m : Int × Int) (child : Board)
    (hpl : player ≠ EMPTY)
    (hcells : ∀ i j : Int,
        ((∃ d ∈ directions,
            CapturedDir (setCell b m.1 m.2 player) m.1 m.2 player d.1 d.2 i j) →
          child i j = player) ∧
        ((¬ ∃ d ∈ directions,
            CapturedDir (setCell b m.1 m.2 player) m.1 m.2 player d.1 d.2 i j) →
          child i j = setCell b m.1 m.2 player i j))
    (i j : Int) :
    child i j = EMPTY ↔ b i j = EMPTY ∧ (i, j) ≠ m := by
  by_cases hc : ∃ d ∈ directions,
      CapturedDir (setCell b m.1 m.2 player) m.1 m.2 player d.1 d.2 i j
  · rw [(hcells i j).1 hc]
    obtain ⟨d, _, hcap⟩ := hc
    have hocc := (CapturedDir_occupied _ _ _ _ _ _ _ _ hcap).2
    constructor
    · intro h; exact absurd h hpl
    · rintro ⟨h0, hne⟩
      exfalso
      apply hocc.1
      have : ¬ (i = m.1 ∧ j = m.2) := fun h => hne (Prod.ext h.1 h.2)
      simp [setCell, this, h0]
  · rw [(hcells i j).2 hc]
    by_cases hij : i = m.1 ∧ j = m.2
    · have : (i, j) = m := Prod.ext hij.1 hij.2
      simp [setCell, hij, hpl, this]
    · have : (i, j) ≠ m := fun h => hij ⟨congrArg Prod.fst h, congrArg Prod.snd h⟩
      simp [setCell, hij, this]

theorem allCells_nodup : allCells.Nodup := by decide

theorem filter_length_remove {α : Type} [DecidableEq α] (P Q : α → Bool) (m : α)
    (hPm : P m = true) (hQ : ∀ c, Q c = true ↔ (P c = true ∧ c ≠ m)) :
    ∀ l : List α, l.Nodup → m ∈ l → (l.filter Q).length + 1 = (l.filter P).length := by
  intro l
  induction l with
  | nil => intro _ h; simp at h
  | cons a l ih =>
    intro hnd hmem
    rw [List.nodup_cons] at hnd
    by_cases ham : a = m
    · subst ham
      have hQa : Q a = false := by
        rw [Bool.eq_false_iff]
        intro h
        exact ((hQ a).1 h).2 rfl
      have hsame : l.filter Q = l.filter P := by
        apply List.filter_congr
        intro c hc
        have hca : c ≠ a := fun h => hnd.1 (h ▸ hc)
        rw [Bool.eq_iff_iff, hQ c]
        exact ⟨fun h => h.1, fun h => ⟨h, hca⟩⟩
      simp [List.filter_cons, hQa, hPm, hsame]
    · have hml : m ∈ l := by
        rcases List.mem_cons.1 hmem with h | h
        · exact absurd h.symm ham
        · exact h
      have hQa : Q a = P a := by
        rw [Bool.eq_iff_iff, hQ a]
        exact ⟨fun h => h.1, fun h => ⟨h, ham⟩⟩
      have := ih hnd.2 hml
      simp only [List.filter_cons, hQa]
      cases P a <;> simp <;> omega

/-- A legal move of a player other than `EMPTY` leaves exactly one empty cell
fewer. -/
theorem childBoard_countEmpty (b : Board) (player : Int) (m : Int × Int)
    (hpl : player ≠ EMPTY) (hm : m ∈ getValidMoves b player) :
    ∃ child : Board, childBoard b m player = some child ∧
      countCells child EMPTY + 1 = countCells b EMPTY := by
  obtain ⟨child, hchild, hcells⟩ := childBoard_cells b player m hm
  obtain ⟨hv, he, -⟩ := makeMove_of_mem b player m hm
  refine ⟨child, hchild, ?_⟩
  unfold countCells
  apply filter_length_remove _ _ m (by simpa using he) _ allCells allCells_nodup
    ((mem_allCells m).2 hv)
  intro c
  simp only [decide_eq_true_eq]
  exact childBoard_empty_iff b player m child hpl hcells c.1 c.2

/-! ## Termination of the search for every depth -/

theorem countCells_le (b : Board) (v : Int) : countCells b v ≤ 36 := by
  unfold countCells
  exact le_trans (List.length_filter_le _ _) (by decide)

/-- For a player in {Black, White} the search returns a value as soon as the
bound on the nesting of calls exceeds the number of empty cells, whatever the
depth. -/
theorem negaScout_some_of_empty :
    ∀ (fuel : Nat) (b : Board) (depth alpha beta player : Int),
      (player = BLACK ∨ player = WHITE) → countCells b EMPTY < fuel →
      ∃ v, negaScout fuel b depth alpha beta player = some v := by
  intro fuel
  induction fuel with
  | zero => intro b depth alpha beta player _ h; omega
  | succ fuel ih =>
    intro b depth alpha beta player hp hcount
    rw [negaScout_succ]
    by_cases hterm : depth = 0 ∨ isGameOver b = true
    · rw [if_pos hterm]; exact ⟨_, rfl⟩
    · rw [if_neg hterm]
      have hne : ¬ (getValidMoves b player).isEmpty = true := by
        intro h
        apply hterm
        right
        rw [isGameOver_iff b player]
        exact List.isEmpty_iff.1 h
      rw [if_neg hne]
      apply scoutLoop_some
      intro mv hmv lo hi
      have hpl : player ≠ EMPTY := by rcases hp with rfl | rfl <;> decide
      obtain ⟨child, hchild, hc⟩ := childBoard_countEmpty b player mv hpl hmv
      rw [hchild]
      have hop : sub32 3 player = BLACK ∨ sub32 3 player = WHITE := by
        rw [sub32_three player hp]
        exact opponent_player player hp
      exact ih child _ lo hi _ hop (by omega)

theorem bestLoop_some (search : Int × Int → Option Int) :
    ∀ (moves : List (Int × Int)) (bestScore : Int) (bestMove : Int × Int),
      (∀ mv ∈ moves, ∃ r, search mv = some r) →
      ∃ res, bestLoop search moves bestScore bestMove = some res := by
  intro moves
  induction moves with
  | nil => intro bestScore bestMove _; exact ⟨_, rfl⟩
  | cons mv rest ih =>
    intro bestScore bestMove hs
    obtain ⟨r, hr⟩ := hs mv (by simp)
    rw [bestLoop, hr]
    simp only
    split_ifs
    · exact ih _ _ fun mv' hmv' => hs mv' (by simp [hmv'])
    · exact ih _ _ fun mv' hmv' => hs mv' (by simp [hmv'])

/-- Claim C18. For every board, window, integer depth (negative depths
included) and player in {Black, White}, `negaScout` returns a value as soon as
the bound on the nesting of calls exceeds the number of empty cells, hence
under the bound 37, and larger bounds give the same value; every legal move
leads to a child with strictly fewer empty cells and the pass branch, the only
recursive call on the same board, is never taken; `findBestMove` called with
depth 0 passes the depth -1 and returns all the same. -/
theorem negaScout_terminates (b : Board) (depth alpha beta player : Int)
    (hp : player = BLACK ∨ player = WHITE) :
    (∃ v, negaScout (countCells b EMPTY + 1) b depth alpha beta player = some v ∧
      ∀ fuel : Nat, countCells b EMPTY < fuel →
        negaScout fuel b depth alpha beta player = some v) ∧
    countCells b EMPTY ≤ 36 ∧
    (∃ v, negaScout 37 b depth alpha beta player = some v) ∧
    (∀ m ∈ getValidMoves b player, ∃ child : Board,
      childBoard b m player = some child ∧ countCells child EMPTY < countCells b EMPTY) ∧
    ¬ (¬ (depth = 0 ∨ isGameOver b = true) ∧ (getValidMoves b player).isEmpty = true) ∧
    sub32 0 1 = -1 ∧
    (∃ mv, findBestMove 37 b player 0 = some mv) := by
  have hle := countCells_le b EMPTY
  have hpl : player ≠ EMPTY := by rcases hp with rfl | rfl <;> decide
  obtain ⟨v, hv⟩ := negaScout_some_of_empty (countCells b EMPTY + 1) b depth alpha beta player hp
    (by omega)
  have hall : ∀ fuel : Nat, countCells b EMPTY < fuel →
      negaScout fuel b depth alpha beta player = some v := by
    intro fuel hf
    have := negaScout_mono (countCells b EMPTY + 1) (fuel - (countCells b EMPTY + 1)) b depth
      alpha beta player v hv
    rw [show countCells b EMPTY + 1 + (fuel - (countCells b EMPTY + 1)) = fuel from by omega]
      at this
    exact this
  refine ⟨⟨v, hv, hall⟩, hle, ⟨v, hall 37 (by omega)⟩, ?_, ?_, by decide, ?_⟩
  · intro m hm
    obtain ⟨child, hchild, hc⟩ := childBoard_countEmpty b player m hpl hm
    exact ⟨child, hchild, by omega⟩
  · rintro ⟨h1, h2⟩
    apply h1
    right
    rw [isGameOver_iff b player]
    exact List.isEmpty_iff.1 h2
  · have hop : sub32 3 player = BLACK ∨ sub32 3 player = WHITE := by
      rw [sub32_three player hp]
      exact opponent_player player hp
    obtain ⟨res, hres⟩ := bestLoop_some
      (fun move =>
        match childBoard b move player with
        | none => none
        | some child => negaScout 37 child (sub32 0 1) INT_MIN INT_MAX (sub32 3 player))
      (getValidMoves b player) INT_MIN (0, 0) (by
        intro mv hmv
        obtain ⟨child, hchild, _⟩ := childBoard_countEmpty b player mv hpl hmv
        simp only [hchild]
        exact negaScout_some_of_empty 37 child _ _ _ _ hop
          (by have := countCells_le child EMPTY; omega))
    refine ⟨res.2, ?_⟩
    unfold findBestMove findBestMoveState
    rw [hres]
    rfl

/-- Witness for C18 on `twoEmpty`, Black to move, at the depth -1: the search
returns 33 under the bound 3 and under the bound 37. -/
theorem negaScout_terminates_witness :
    (BLACK = BLACK ∨ BLACK = WHITE) ∧
    negaScout 3 twoEmpty (-1) INT_MIN INT_MAX BLACK = some 33 ∧
    (∃ v, negaScout (countCells twoEmpty EMPTY + 1) twoEmpty (-1) INT_MIN INT_MAX BLACK
        = some v ∧
      ∀ fuel : Nat, countCells twoEmpty EMPTY < fuel →
        negaScout fuel twoEmpty (-1) INT_MIN INT_MAX BLACK = some v) ∧
    (∃ v, negaScout 37 twoEmpty (-1) INT_MIN INT_MAX BLACK = some v) ∧
    (∃ mv, findBestMove 37 twoEmpty BLACK 0 = some mv) :=
  ⟨Or.inl rfl, by decide,
    (negaScout_terminates twoEmpty (-1) INT_MIN INT_MAX BLACK (Or.inl rfl)).1,
    (negaScout_terminates twoEmpty (-1) INT_MIN INT_MAX BLACK (Or.inl rfl)).2.2.1,
    (negaScout_terminates twoEmpty (-1) INT_MIN INT_MAX BLACK (Or.inl rfl)).2.2.2.2.2.2⟩

/-! ## Depth 1 is the greedy choice -/

theorem evaluate_neg_opponent (b : Board) (p : Int) (hp : p = BLACK ∨ p = WHITE) :
    - evaluate b (opponent p) = evaluate b p := by
  have e1 := evaluate_eq_count b 1 (by decide)
  have e2 := evaluate_eq_count b 2 (by decide)
  have s1 : sub32 3 1 = 2 := by decide
  have s2 : sub32 3 2 = 1 := by decide
  rw [s1] at e1
  rw [s2] at e2
  rcases hp with rfl | rfl
  · show - evaluate b 2 = evaluate b 1
    rw [e1, e2]; ring
  · show - evaluate b 1 = evaluate b 2
    rw [e1, e2]; ring

/-- Claim C19. For every board and player in {Black, White} with at least one
legal move, and every bound of at least 1 on the nesting of calls,
`findBestMove` at depth 1 is the greedy choice: it returns the first move in
generator order that maximises the player's evaluation of the position after
the move, and the best score it holds is that evaluation. -/
theorem findBestMove_depth_one (fuel : Nat) (b : Board) (player : Int)
    (hp : player = BLACK ∨ player = WHITE) (hfuel : 1 ≤ fuel)
    (hmoves : getValidMoves b player ≠ []) :
    ∃ (gains : List Int) (i : Nat) (mv : Int × Int) (s : Int),
      List.Forall₂ (fun m t => ∃ child : Board,
        childBoard b m player = some child ∧ t = evaluate child player)
        (getValidMoves b player) gains ∧
      IsFirstMax gains i ∧
      (getValidMoves b player)[i]? = some mv ∧
      gains[i]? = some s ∧
      findBestMoveState fuel b player 1 = some (s, mv) ∧
      findBestMove fuel b player 1 = some mv := by
  obtain ⟨f, rfl⟩ : ∃ f, fuel = f + 1 := ⟨fuel - 1, by omega⟩
  have hsub : sub32 1 1 = 0 := by decide
  have hopp := sub32_three player hp
  obtain ⟨gains, hgains⟩ := exists_forall₂ (fun m t => ∃ child : Board,
        childBoard b m player = some child ∧ t = evaluate child player)
      (getValidMoves b player) (by
    intro m hm
    obtain ⟨child, hchild⟩ := childBoard_some b m player
      ((mem_getValidMoves b player m).1 hm).1
    exact ⟨_, child, hchild, rfl⟩)
  have hsearch : List.Forall₂ (fun m t => ∃ (child : Board) (v : Int),
        childBoard b m player = some child ∧
        negaScout (f + 1) child (sub32 1 1) INT_MIN INT_MAX (sub32 3 player) = some v ∧
        t = -v) (getValidMoves b player) gains := by
    refine hgains.imp ?_
    rintro m t ⟨child, hc, ht⟩
    refine ⟨child, evaluate child (opponent player), hc, ?_, ?_⟩
    · rw [hsub, hopp, negaScout_zero]
    · rw [ht, evaluate_neg_opponent child player hp]
  obtain ⟨i, mv, s, g1, g2, g4, g5, g6⟩ :=
    findBestMoveState_firstMax (f + 1) b player 1 gains hsearch hmoves
  refine ⟨gains, i, mv, s, hgains, ⟨s, g2, g4, g5⟩, g1, g2, g6, ?_⟩
  rw [findBestMove, g6]
  rfl

/-- Witness for C19 on `twoEmpty`, Black to move: the children evaluate to 33
and 35 for Black and the selector ends with score 35 and move `(0, 1)`. -/
theorem findBestMove_depth_one_witness :
    (BLACK = BLACK ∨ BLACK = WHITE) ∧ 1 ≤ 1 ∧ getValidMoves twoEmpty BLACK ≠ [] ∧
    findBestMoveState 1 twoEmpty BLACK 1 = some (35, (0, 1)) ∧
    ((getValidMoves twoEmpty BLACK).map fun m =>
      (childBoard twoEmpty m BLACK).map fun c => evaluate c BLACK) = [some 33, some 35] ∧
    ∃ (gains : List Int) (i : Nat) (mv : Int × Int) (s : Int),
      List.Forall₂ (fun m t => ∃ child : Board,
        childBoard twoEmpty m BLACK = some child ∧ t = evaluate child BLACK)
        (getValidMoves twoEmpty BLACK) gains ∧
      IsFirstMax gains i ∧
      (getValidMoves twoEmpty BLACK)[i]? = some mv ∧
      gains[i]? = some s ∧
      findBestMoveState 1 twoEmpty BLACK 1 = some (s, mv) ∧
      findBestMove 1 twoEmpty BLACK 1 = some mv :=
  ⟨Or.inl rfl, le_refl _, by decide, by decide, by decide,
    findBestMove_depth_one 1 twoEmpty BLACK (Or.inl rfl) (le_refl _) (by decide)⟩

/-! ## Material after a move -/

theorem sum_map_congr_add {α : Type} (f g h : α → Int) (l : List α)
    (hfg : ∀ c ∈ l, f c = g c + h c) :
    (l.map f).sum = (l.map g).sum + (l.map h).sum := by
  induction l with
  | nil => simp
  | cons a l ih =>
    simp only [List.map_cons, List.sum_cons]
    rw [hfg a (by simp), ih fun c hc => hfg c (by simp [hc])]
    ring

theorem sum_gain {α : Type} [DecidableEq α] (F : α → Bool) (m : α) (hFm : F m = false) :
    ∀ l : List α, l.Nodup → m ∈ l →
      (l.map fun c => if c = m then (1 : Int) else if F c = true then 2 else 0).sum
        = 1 + 2 * ((l.filter F).length : Int) := by
  have hnot : ∀ l : List α, m ∉ l →
      (l.map fun c => if c = m then (1 : Int) else if F c = true then 2 else 0).sum
        = 2 * ((l.filter F).length : Int) := by
    intro l
    induction l with
    | nil => intro _; simp
    | cons a l ih =>
      intro hm
      have ham : a ≠ m := fun h => hm (by simp [h])
      have hml : m ∉ l := fun h => hm (by simp [h])
      simp only [List.map_cons, List.sum_cons, ih hml, List.filter_cons, if_neg ham]
      cases F a <;> simp
      ring
  intro l
  induction l with
  | nil => intro _ h; simp at h
  | cons a l ih =>
    intro hnd hmem
    rw [List.nodup_cons] at hnd
    by_cases ham : a = m
    · subst ham
      simp only [List.map_cons, List.sum_cons, if_true, hnot l hnd.1, List.filter_cons, hFm]
      simp
    · have hml : m ∈ l := by
        rcases List.mem_cons.1 hmem with h | h
        · exact absurd h.symm ham
        · exact h
      simp only [List.map_cons, List.sum_cons, ih hnd.2 hml, List.filter_cons, if_neg ham]
      cases F a <;> simp
      ring

/-- Claim C17. For every well-formed board, player in {Black, White} and legal
move `m`, the child position built by `makeMove` and `flipTiles` exists, its
empty cells are the empty cells of the parent other than `m` (one fewer), and
the player's evaluation of the child is the evaluation of the parent plus 1
plus twice the number of cells changed by the flip, hence strictly greater. -/
theorem childBoard_material (b : Board) (player : Int) (m : Int × Int)
    (hp : player = BLACK ∨ player = WHITE) (hwf : WellFormed b)
    (hm : m ∈ getValidMoves b player) :
    ∃ child : Board, childBoard b m player = some child ∧
      (∀ i j : Int, child i j = EMPTY ↔ b i j = EMPTY ∧ (i, j) ≠ m) ∧
      countCells child EMPTY + 1 = countCells b EMPTY ∧
      evaluate child player
        = evaluate b player + 1
          + 2 * (changedCells (makeMove b m.1 m.2 player).2 child : Int) ∧
      evaluate b player < evaluate child player := by
  have hpl : player ≠ EMPTY := by rcases hp with rfl | rfl <;> decide
  obtain ⟨child, hchild, hcells⟩ := childBoard_cells b player m hm
  obtain ⟨hv, he, hplaced⟩ := makeMove_of_mem b player m hm
  have hempty := childBoard_empty_iff b player m child hpl hcells
  have hcount : countCells child EMPTY + 1 = countCells b EMPTY := by
    unfold countCells
    apply filter_length_remove _ _ m (by simpa using he) _ allCells allCells_nodup
      ((mem_allCells m).2 hv)
    intro c
    simp only [decide_eq_true_eq]
    exact hempty c.1 c.2
  have hopp := sub32_three player hp
  -- the move's own cell is not captured
  have hm_keep : child m.1 m.2 = player := by
    by_cases hc : ∃ d ∈ directions,
        CapturedDir (setCell b m.1 m.2 player) m.1 m.2 player d.1 d.2 m.1 m.2
    · exact (hcells _ _).1 hc
    · rw [(hcells _ _).2 hc]; simp [setCell]
  have hm_placed : setCell b m.1 m.2 player m.1 m.2 = player := by simp [setCell]
  -- the score of every cell of the board
  have hcell : ∀ c ∈ allCells,
      (if child c.1 c.2 = player then (1 : Int)
        else if child c.1 c.2 = sub32 3 player then -1 else 0)
      = (if b c.1 c.2 = player then (1 : Int)
          else if b c.1 c.2 = sub32 3 player then -1 else 0)
        + (if c = m then (1 : Int)
            else if decide (child c.1 c.2 ≠ setCell b m.1 m.2 player c.1 c.2) = true then 2
            else 0) := by
    intro c hc
    have hcv := (mem_allCells c).1 hc
    rw [hopp]
    by_cases hcm : c = m
    · subst hcm
      have h1 : (0 : Int) ≠ player := fun h => hpl h.symm
      have h2 : (0 : Int) ≠ opponent player := by
        rcases hp with rfl | rfl <;> decide
      have he' : b c.1 c.2 = 0 := he
      simp [hm_keep, he', h1, h2]
    · have hne : ¬ (c.1 = m.1 ∧ c.2 = m.2) := fun h => hcm (Prod.ext h.1 h.2)
      have hpc : setCell b m.1 m.2 player c.1 c.2 = b c.1 c.2 := by simp [setCell, hne]
      by_cases hcap : ∃ d ∈ directions,
          CapturedDir (setCell b m.1 m.2 player) m.1 m.2 player d.1 d.2 c.1 c.2
      · have hch := (hcells _ _).1 hcap
        obtain ⟨d, _, hd⟩ := hcap
        obtain ⟨-, h0, h1⟩ := CapturedDir_occupied _ _ _ _ _ _ _ _ hd
        rw [hpc] at h0 h1
        have hbo : b c.1 c.2 = opponent player := by
          have := hwf c.1 c.2 hcv
          simp only [EMPTY, BLACK, WHITE, opponent] at *
          omega
        have hop : opponent player ≠ player := by rcases hp with rfl | rfl <;> decide
        simp [hcm, hch, hpc, hbo, hop, hop.symm]
      · have hch := (hcells _ _).2 hcap
        simp [hcm, hch, hpc]
  have hsum := sum_map_congr_add _ _ _ allCells hcell
  have hgain := sum_gain
    (fun c : Int × Int => decide (child c.1 c.2 ≠ setCell b m.1 m.2 player c.1 c.2)) m
    (by simp [hm_keep, hm_placed]) allCells allCells_nodup ((mem_allCells m).2 hv)
  have heval : evaluate child player
      = evaluate b player + 1
        + 2 * (changedCells (makeMove b m.1 m.2 player).2 child : Int) := by
    rw [evaluate_eq_sum, evaluate_eq_sum, hsum, hgain, hplaced]
    unfold changedCells
    ring
  refine ⟨child, hchild, hempty, hcount, heval, ?_⟩
  rw [heval]
  have : (0 : Int) ≤ (changedCells (makeMove b m.1 m.2 player).2 child : Int) :=
    Int.natCast_nonneg _
  omega

/-- Witness for C17 on `twoEmpty`, Black playing `(0, 1)`: the move captures
the white stone at `(1, 2)`, so the evaluation rises from 32 to 35. -/
theorem childBoard_material_witness :
    (BLACK = BLACK ∨ BLACK = WHITE) ∧ WellFormed twoEmpty ∧
    (0, 1) ∈ getValidMoves twoEmpty BLACK ∧
    evaluate twoEmpty BLACK = 32 ∧
    (childBoard twoEmpty (0, 1) BLACK).map (fun c =>
      (evaluate c BLACK, changedCells (makeMove twoEmpty 0 1 BLACK).2 c, countCells c EMPTY))
      = some (35, 1, 1) ∧
    ∃ child : Board, childBoard twoEmpty (0, 1) BLACK = some child ∧
      (∀ i j : Int, child i j = EMPTY ↔ twoEmpty i j = EMPTY ∧ (i, j) ≠ (0, 1)) ∧
      countCells child EMPTY + 1 = countCells twoEmpty EMPTY ∧
      evaluate child BLACK
        = evaluate twoEmpty BLACK + 1
          + 2 * (changedCells (makeMove twoEmpty (0, 1).1 (0, 1).2 BLACK).2 child : Int) ∧
      evaluate twoEmpty BLACK < evaluate child BLACK :=
  ⟨Or.inl rfl, OthelloBoard_wellFormed _, by decide, by decide, by decide,
    childBoard_material twoEmpty BLACK (0, 1) (Or.inl rfl) (OthelloBoard_wellFormed _)
      (by decide)⟩

/-! ## Grid accesses stay on the board -/

theorem readCell_valid (b : Board) (x y : Int) (h : isValidMove x y = true) :
    readCell b x y = some (b x y) := by
  simp [readCell, h]

theorem anyChecked_some {α : Type} (g : α → Bool) (l : List α) :
    anyChecked (fun a => some (g a)) l = some (l.any g) := by
  induction l with
  | nil => rfl
  | cons a l ih =>
    rw [anyChecked, List.any_cons]
    cases hg : g a
    · simpa using ih
    · simp

theorem hasNeighborChecked_eq (b : Board) (x y : Int) :
    hasNeighborChecked b x y = some (hasNeighbor b x y) := by
  unfold hasNeighborChecked hasNeighbor
  have hinner : ∀ dx : Int,
      anyChecked (fun dy =>
        if dx = 0 ∧ dy = 0 then some false
        else if isValidMove (x + dx) (y + dy) = true then
          (readCell b (x + dx) (y + dy)).map fun v => decide (v ≠ EMPTY)
        else some false) offsets
      = some (offsets.any fun dy =>
          if dx = 0 ∧ dy = 0 then false
          else isValidMove (x + dx) (y + dy) && !isEmpty b (x + dx) (y + dy)) := by
    intro dx
    rw [← anyChecked_some]
    congr 1
    funext dy
    by_cases h0 : dx = 0 ∧ dy = 0
    · rw [if_pos h0, if_pos h0]
    · rw [if_neg h0, if_neg h0]
      by_cases hv : isValidMove (x + dx) (y + dy) = true
      · rw [if_pos hv, readCell_valid b _ _ hv, hv]
        simp [isEmpty]
      · rw [if_neg hv]
        simp [hv]
  simp only [hinner]
  exact anyChecked_some _ _

theorem makeMoveChecked_eq (b : Board) (x y player : Int) (hin : isValidMove x y = true) :
    makeMoveChecked b x y player = some (makeMove b x y player) := by
  unfold makeMoveChecked makeMove
  rw [readCell_valid b x y hin, hasNeighborChecked_eq]
  simp only [writeCell, hin, if_true, Option.map_some']
  by_cases he : b x y = EMPTY
  · cases hn : hasNeighbor b x y <;> simp [isEmpty, he]
  · simp [isEmpty, he]

theorem walkChecked_eq (b : Board) (player dx dy : Int) :
    ∀ (n : Nat) (nx ny : Int),
      walkChecked b player dx dy n nx ny = walk b player dx dy n nx ny := by
  intro n
  induction n with
  | zero => intro nx ny; rfl
  | succ n ih =>
    intro nx ny
    rw [walkChecked, walk]
    by_cases hv : isValidMove nx ny = true
    · rw [if_pos hv, readCell_valid b nx ny hv]
      simp only [hv, Bool.true_and, Bool.and_eq_true, decide_eq_true_eq, ih]
    · rw [if_neg hv]
      simp [hv]

theorem rewriteRunChecked_eq (player : Int) {x y dx dy : Int} (k : Nat)
    (hvalid : ∀ s : Nat, 1 ≤ s → s ≤ k → isValidMove (x + s * dx) (y + s * dy) = true) :
    ∀ (m n t : Nat) (b : Board), 1 ≤ t → t + m = k + 1 →
      rewriteRunChecked player dx dy (x + (k + 1 : Nat) * dx) (y + (k + 1 : Nat) * dy) n b
          (x + t * dx) (y + t * dy)
        = rewriteRun player dx dy (x + (k + 1 : Nat) * dx) (y + (k + 1 : Nat) * dy) n b
          (x + t * dx) (y + t * dy) := by
  intro m
  induction m with
  | zero =>
    intro n t b _ ht
    have htk : t = k + 1 := by omega
    subst htk
    cases n with
    | zero => rfl
    | succ n => simp [rewriteRunChecked, rewriteRun]
  | succ m ih =>
    intro n t b ht1 ht
    cases n with
    | zero => rfl
    | succ n =>
      rw [rewriteRunChecked, rewriteRun]
      by_cases hgo : x + (t : Int) * dx ≠ x + ((k + 1 : Nat) : Int) * dx ∨
          y + (t : Int) * dy ≠ y + ((k + 1 : Nat) : Int) * dy
      · rw [if_pos hgo, if_pos hgo]
        have hv := hvalid t ht1 (by omega)
        have e1 : x + (t : Int) * dx + dx = x + ((t + 1 : Nat) : Int) * dx := by
          push_cast; ring
        have e2 : y + (t : Int) * dy + dy = y + ((t + 1 : Nat) : Int) * dy := by
          push_cast; ring
        simp only [writeCell, hv, if_true]
        rw [e1, e2]
        exact ih n (t + 1) _ (by omega) (by omega)
      · rw [if_neg hgo, if_neg hgo]

theorem flipDirChecked_eq (b : Board) (player : Int) {x y dx dy : Int}
    (hin : isValidMove x y = true) (hd : IsDirection dx dy) :
    flipDirChecked b x y player dx dy = flipDir b x y player dx dy := by
  obtain ⟨m, hm5, hrun, hstop⟩ := run_length_exists b player hin hd
  have hwalk := walk_run b player dx dy x y m lineFuel 1 (by simp [lineFuel]; omega) hrun hstop
  have e1 : x + dx = x + ((1 : Nat) : Int) * dx := by simp
  have e2 : y + dy = y + ((1 : Nat) : Int) * dy := by simp
  unfold flipDirChecked flipDir
  rw [walkChecked_eq, e1, e2, hwalk]
  simp only
  by_cases hv : isValidMove (x + (1 + m : Nat) * dx) (y + (1 + m : Nat) * dy) = true
  · rw [if_pos hv, readCell_valid b _ _ hv]
    simp only [hv, Bool.true_and, decide_eq_true_eq]
    by_cases hpl : b (x + (1 + m : Nat) * dx) (y + (1 + m : Nat) * dy) = player
    · rw [if_pos hpl, if_pos hpl]
      have hm1 : (1 + m : Nat) = (m + 1 : Nat) := by omega
      rw [hm1]
      exact rewriteRunChecked_eq player m
        (fun s h1 h2 => ((continues_iff b player _ _).1 (hrun s h1 (by omega))).1)
        m lineFuel 1 b (le_refl _) (by omega)
    · rw [if_neg hpl, if_neg hpl]
  · rw [if_neg hv]
    rw [Bool.not_eq_true] at hv
    simp only [hv, Bool.false_and, Bool.false_eq_true, if_false]

theorem flipTilesChecked_eq (b : Board) (player : Int) {x y : Int}
    (hin : isValidMove x y = true) :
    flipTilesChecked b x y player = flipTiles b x y player := by
  have h1 : ∀ b1 : Board, flipDirChecked b1 x y player (-1) (-1) = flipDir b1 x y player (-1) (-1) :=
    fun b1 => flipDirChecked_eq b1 player hin (by simp [IsDirection])
  have h2 : ∀ b1 : Board, flipDirChecked b1 x y player (-1) 0 = flipDir b1 x y player (-1) 0 :=
    fun b1 => flipDirChecked_eq b1 player hin (by simp [IsDirection])
  have h3 : ∀ b1 : Board, flipDirChecked b1 x y player (-1) 1 = flipDir b1 x y player (-1) 1 :=
    fun b1 => flipDirChecked_eq b1 player hin (by simp [IsDirection])
  have h4 : ∀ b1 : Board, flipDirChecked b1 x y player 0 (-1) = flipDir b1 x y player 0 (-1) :=
    fun b1 => flipDirChecked_eq b1 player hin (by simp [IsDirection])
  have h5 : ∀ b1 : Board, flipDirChecked b1 x y player 0 1 = flipDir b1 x y player 0 1 :=
    fun b1 => flipDirChecked_eq b1 player hin (by simp [IsDirection])
  have h6 : ∀ b1 : Board, flipDirChecked b1 x y player 1 (-1) = flipDir b1 x y player 1 (-1) :=
    fun b1 => flipDirChecked_eq b1 player hin (by simp [IsDirection])
  have h7 : ∀ b1 : Board, flipDirChecked b1 x y player 1 0 = flipDir b1 x y player 1 0 :=
    fun b1 => flipDirChecked_eq b1 player hin (by simp [IsDirection])
  have h8 : ∀ b1 : Board, flipDirChecked b1 x y player 1 1 = flipDir b1 x y player 1 1 :=
    fun b1 => flipDirChecked_eq b1 player hin (by simp [IsDirection])
  simp only [flipTilesChecked, flipTiles, offsets, List.foldlM_cons, List.foldlM_nil]
  simp [h1, h2, h3, h4, h5, h6, h7, h8]

/-- Claim C13. For every board, in-bounds cell `(x, y)` and player, `makeMove`
and `flipTiles` read and write only cells of the board and both loops of
`flipTiles` terminate: the versions in which every grid access outside the
array fails return the same flag and boards as `makeMove` and `flipTiles`. -/
theorem grid_access_in_bounds (b : Board) (x y player : Int) (hin : isValidMove x y = true) :
    makeMoveChecked b x y player = some (makeMove b x y player) ∧
    ∃ b1 : Board, flipTilesChecked b x y player = some b1 ∧
      flipTiles b x y player = some b1 := by
  refine ⟨makeMoveChecked_eq b x y player hin, ?_⟩
  obtain ⟨b1, hb1, -⟩ := flipTiles_cells b player hin
  exact ⟨b1, by rw [flipTilesChecked_eq b player hin]; exact hb1, hb1⟩

/-- Witness for C13 on scenario S2 at the cell `(3, 4)` for White; outside the
board the checked placement fails. -/
theorem grid_access_in_bounds_witness :
    isValidMove 3 4 = true ∧
    (makeMoveChecked scenarioS2 6 0 WHITE).isSome = false ∧
    makeMoveChecked scenarioS2 3 4 WHITE = some (makeMove scenarioS2 3 4 WHITE) ∧
    ∃ b1 : Board, flipTilesChecked scenarioS2 3 4 WHITE = some b1 ∧
      flipTiles scenarioS2 3 4 WHITE = some b1 :=
  ⟨by decide, by decide, grid_access_in_bounds scenarioS2 3 4 WHITE (by decide)⟩

/-! ## The returned value and the window -/

theorem scoutLoop_window (search : Int × Int → Int → Int → Option Int) (depth beta : Int)
    (hb1 : INT_MIN < beta) (hb2 : beta ≤ INT_MAX)
    (hsearch : ∀ (mv : Int × Int) (lo hi r : Int), INT_MIN < lo → lo ≤ INT_MAX →
      INT_MIN < hi → hi ≤ INT_MAX → search mv lo hi = some r →
      (lo ≤ r ∨ -36 ≤ r) ∧ (r ≤ lo ∨ r ≤ hi ∨ r ≤ 36)) :
    ∀ (moves : List (Int × Int)) (a b v : Int),
      INT_MIN < a → a ≤ INT_MAX → (b = beta ∨ (a < beta ∧ b = a + 1)) →
      scoutLoop search depth beta moves a b = some v →
      (a ≤ v ∨ -36 ≤ v) ∧ (v ≤ a ∨ v ≤ beta ∨ v ≤ 36) := by
  intro moves
  induction moves with
  | nil =>
    intro a b v _ _ _ hv
    simp only [scoutLoop, Option.some.injEq] at hv
    subst hv
    exact ⟨Or.inl (le_refl _), Or.inl (le_refl _)⟩
  | cons mv rest ih =>
    intro a b v ha1 ha2 hb hv
    rw [scoutLoop] at hv
    have hbg : INT_MIN < b ∧ b ≤ INT_MAX ∧ b ≤ beta := by
      rcases hb with hb | ⟨h1, h2⟩
      · subst hb; exact ⟨hb1, hb2, le_refl _⟩
      · subst h2; simp only [INT_MIN, INT_MAX] at *; omega
    have hnb : neg32 b = -b := neg32_eq b hbg.1 hbg.2.1
    have hna : neg32 a = -a := neg32_eq a ha1 ha2
    have hnbeta : neg32 beta = -beta := neg32_eq beta hb1 hb2
    have hstep : ∀ a1, scoutStep search depth beta mv a b = some a1 →
        (INT_MIN < a1 ∧ a1 ≤ INT_MAX) ∧ (a ≤ a1 ∨ -36 ≤ a1) ∧ (a1 ≤ a ∨ a1 ≤ beta ∨ a1 ≤ 36) := by
      intro a1 hs
      unfold scoutStep at hs
      rw [hnb, hna] at hs
      cases hr : search mv (-b) (-a) with
      | none => rw [hr] at hs; simp at hs
      | some r =>
        rw [hr] at hs
        simp only at hs
        have hrb := hsearch mv (-b) (-a) r
          (by simp only [INT_MIN, INT_MAX] at *; omega)
          (by simp only [INT_MIN, INT_MAX] at *; omega)
          (by simp only [INT_MIN, INT_MAX] at *; omega)
          (by simp only [INT_MIN, INT_MAX] at *; omega) hr
        have hrg : INT_MIN < r ∧ r ≤ INT_MAX := by
          simp only [INT_MIN, INT_MAX] at *; omega
        have hnr : neg32 r = -r := neg32_eq r hrg.1 hrg.2
        rw [hnr] at hs
        by_cases hgt : -r > a
        · rw [if_pos hgt] at hs
          by_cases hfirst : b = beta ∨ depth ≤ 2
          · rw [if_pos hfirst] at hs
            simp only [Option.some.injEq] at hs
            subst hs
            simp only [INT_MIN, INT_MAX] at *
            omega
          · rw [if_neg hfirst] at hs
            have hab : a < beta ∧ b = a + 1 := by
              rcases hb with hb | hb
              · exact absurd (Or.inl hb) hfirst
              · exact hb
            have hns : neg32 (-r) = - -r := neg32_eq (-r)
              (by simp only [INT_MIN, INT_MAX] at *; omega)
              (by simp only [INT_MIN, INT_MAX] at *; omega)
            rw [hnbeta, hns] at hs
            cases hr2 : search mv (-beta) (- -r) with
            | none => rw [hr2] at hs; simp at hs
            | some r2 =>
              rw [hr2] at hs
              simp only [Option.some.injEq] at hs
              have hr2b := hsearch mv (-beta) (- -r) r2
                (by simp only [INT_MIN, INT_MAX] at *; omega)
                (by simp only [INT_MIN, INT_MAX] at *; omega)
                (by simp only [INT_MIN, INT_MAX] at *; omega)
                (by simp only [INT_MIN, INT_MAX] at *; omega) hr2
              have hr2g : INT_MIN < r2 ∧ r2 ≤ INT_MAX := by
                simp only [INT_MIN, INT_MAX] at *; omega
              rw [neg32_eq r2 hr2g.1 hr2g.2] at hs
              subst hs
              simp only [INT_MIN, INT_MAX] at *
              omega
        · rw [if_neg hgt] at hs
          simp only [Option.some.injEq] at hs
          subst hs
          exact ⟨⟨ha1, ha2⟩, Or.inl (le_refl _), Or.inl (le_refl _)⟩
    cases hs : scoutStep search depth beta mv a b with
    | none => rw [hs] at hv; simp at hv
    | some a1 =>
      rw [hs] at hv
      simp only at hv
      obtain ⟨hg, hlo, hhi⟩ := hstep a1 hs
      by_cases hcut : a1 ≥ beta
      · rw [if_pos hcut] at hv
        simp only [Option.some.injEq] at hv
        subst hv
        exact ⟨hlo, hhi⟩
      · rw [if_neg hcut] at hv
        have hadd : add32 a1 1 = a1 + 1 := by
          unfold add32
          apply wrap32_eq <;> simp only [INT_MIN, INT_MAX] at * <;> omega
        have := ih a1 _ v hg.1 hg.2 (Or.inr ⟨by omega, hadd⟩) hv
        omega

/-- With both window bounds above `INT_MIN` the returned value is at least
`alpha` or at least -36, and at most the larger window bound or at most 36;
the window need not be ordered. -/
theorem negaScout_window :
    ∀ (fuel : Nat) (b : Board) (depth alpha beta player v : Int),
      INT_MIN < alpha → alpha ≤ INT_MAX → INT_MIN < beta → beta ≤ INT_MAX →
      negaScout fuel b depth alpha beta player = some v →
      (alpha ≤ v ∨ -36 ≤ v) ∧ (v ≤ alpha ∨ v ≤ beta ∨ v ≤ 36) := by
  intro fuel
  induction fuel with
  | zero => intro b depth alpha beta player v _ _ _ _ h; simp [negaScout] at h
  | succ fuel ih =>
    intro b depth alpha beta player v h1 h2 h3 h4 hv
    rw [negaScout_succ] at hv
    by_cases hterm : depth = 0 ∨ isGameOver b = true
    · rw [if_pos hterm] at hv
      simp only [Option.some.injEq] at hv
      subst hv
      have := evaluate_bounds b player
      omega
    · rw [if_neg hterm] at hv
      by_cases hemp : (getValidMoves b player).isEmpty = true
      · rw [if_pos hemp] at hv
        exact ih b _ alpha beta _ v h1 h2 h3 h4 hv
      · rw [if_neg hemp] at hv
        refine scoutLoop_window _ depth beta h3 h4 ?_ _ alpha beta v h1 h2 (Or.inl rfl) hv
        intro mv lo hi r g1 g2 g3 g4 hr
        cases hc : childBoard b mv player with
        | none => rw [hc] at hr; simp at hr
        | some child =>
          rw [hc] at hr
          exact ih child _ lo hi _ r g1 g2 g3 g4 hr

/-- When the upper window bound is `INT_MIN`, the value that `-alpha` wraps to
for `alpha = INT_MIN`, the loop stops after its first move and the value is at
least `alpha` or at least -36. -/
theorem negaScout_low_beta :
    ∀ (fuel : Nat) (b : Board) (depth alpha player v : Int),
      INT_MIN < alpha → alpha ≤ INT_MAX →
      negaScout fuel b depth alpha INT_MIN player = some v → alpha ≤ v ∨ -36 ≤ v := by
  intro fuel
  induction fuel with
  | zero => intro b depth alpha player v _ _ h; simp [negaScout] at h
  | succ fuel ih =>
    intro b depth alpha player v h1 h2 hv
    rw [negaScout_succ] at hv
    by_cases hterm : depth = 0 ∨ isGameOver b = true
    · rw [if_pos hterm] at hv
      simp only [Option.some.injEq] at hv
      subst hv
      exact Or.inr (evaluate_bounds b player).1
    · rw [if_neg hterm] at hv
      by_cases hemp : (getValidMoves b player).isEmpty = true
      · rw [if_pos hemp] at hv
        exact ih b _ alpha _ v h1 h2 hv
      · rw [if_neg hemp] at hv
        cases hmoves : getValidMoves b player with
        | nil => rw [hmoves] at hemp; simp at hemp
        | cons mv rest =>
          rw [hmoves, scoutLoop] at hv
          cases hs : scoutStep (fun move lo hi =>
              match childBoard b move player with
              | none => none
              | some child => negaScout fuel child (sub32 depth 1) lo hi (sub32 3 player))
              depth INT_MIN mv alpha INT_MIN with
          | none => rw [hs] at hv; simp at hv
          | some a1 =>
            rw [hs] at hv
            simp only at hv
            have ha1 : alpha ≤ a1 := by
              unfold scoutStep at hs
              simp only at hs
              cases hr : (match childBoard b mv player with
                | none => none
                | some child =>
                  negaScout fuel child (sub32 depth 1) (neg32 INT_MIN) (neg32 alpha)
                    (sub32 3 player)) with
              | none => rw [hr] at hs; simp at hs
              | some r =>
                rw [hr] at hs
                simp only [true_or, if_true] at hs
                by_cases hgt : neg32 r > alpha
                · rw [if_pos hgt] at hs
                  simp only [Option.some.injEq] at hs
                  omega
                · rw [if_neg hgt] at hs
                  simp only [Option.some.injEq] at hs
                  omega
            have hcut : a1 ≥ INT_MIN := by omega
            rw [if_pos hcut] at hv
            simp only [Option.some.injEq] at hv
            subst hv
            exact Or.inl ha1

/-- With the window `(INT_MIN, INT_MIN)` the value lies between -36 and 36. -/
theorem negaScout_min_window :
    ∀ (fuel : Nat) (b : Board) (depth player v : Int),
      negaScout fuel b depth INT_MIN INT_MIN player = some v → -36 ≤ v ∧ v ≤ 36 := by
  intro fuel
  induction fuel with
  | zero => intro b depth player v h; simp [negaScout] at h
  | succ fuel ih =>
    intro b depth player v hv
    rw [negaScout_succ] at hv
    by_cases hterm : depth = 0 ∨ isGameOver b = true
    · rw [if_pos hterm] at hv
      simp only [Option.some.injEq] at hv
      subst hv
      exact evaluate_bounds b player
    · rw [if_neg hterm] at hv
      by_cases hemp : (getValidMoves b player).isEmpty = true
      · rw [if_pos hemp] at hv
        exact ih b _ _ v hv
      · rw [if_neg hemp] at hv
        cases hmoves : getValidMoves b player with
        | nil => rw [hmoves] at hemp; simp at hemp
        | cons mv rest =>
          rw [hmoves, scoutLoop] at hv
          have hn : neg32 INT_MIN = INT_MIN := by decide
          cases hs : scoutStep (fun move lo hi =>
              match childBoard b move player with
              | none => none
              | some child => negaScout fuel child (sub32 depth 1) lo hi (sub32 3 player))
              depth INT_MIN mv INT_MIN INT_MIN with
          | none => rw [hs] at hv; simp at hv
          | some a1 =>
            rw [hs] at hv
            simp only at hv
            have ha1 : -36 ≤ a1 ∧ a1 ≤ 36 := by
              unfold scoutStep at hs
              simp only [hn] at hs
              cases hr : (match childBoard b mv player with
                | none => none
                | some child =>
                  negaScout fuel child (sub32 depth 1) INT_MIN INT_MIN (sub32 3 player)) with
              | none => rw [hr] at hs; simp at hs
              | some r =>
                rw [hr] at hs
                simp only [true_or, if_true] at hs
                have hrb : -36 ≤ r ∧ r ≤ 36 := by
                  cases hc : childBoard b mv player with
                  | none => rw [hc] at hr; simp at hr
                  | some child =>
                    rw [hc] at hr
                    exact ih child _ _ r hr
                have hnr : neg32 r = -r :=
                  neg32_eq r (by unfold INT_MIN; omega) (by unfold INT_MAX; omega)
                rw [hnr] at hs
                have hgt : -r > INT_MIN := by unfold INT_MIN; omega
                rw [if_pos hgt] at hs
                simp only [Option.some.injEq] at hs
                omega
            have hcut : a1 ≥ INT_MIN := by unfold INT_MIN; omega
            rw [if_pos hcut] at hv
            simp only [Option.some.injEq] at hv
            subst hv
            exact ha1

/-- With the lower window bound `INT_MIN` and an upper bound above it the value
is at most the upper bound or at most 36. -/
theorem negaScout_open_low :
    ∀ (fuel : Nat) (b : Board) (depth beta player v : Int),
      INT_MIN < beta → beta ≤ INT_MAX →
      negaScout fuel b depth INT_MIN beta player = some v →
      INT_MIN ≤ v ∧ (v ≤ beta ∨ v ≤ 36) := by
  intro fuel
  induction fuel with
  | zero => intro b depth beta player v _ _ h; simp [negaScout] at h
  | succ fuel ih =>
    intro b depth beta player v h1 h2 hv
    rw [negaScout_succ] at hv
    by_cases hterm : depth = 0 ∨ isGameOver b = true
    · rw [if_pos hterm] at hv
      simp only [Option.some.injEq] at hv
      subst hv
      have := evaluate_bounds b player
      unfold INT_MIN
      omega
    · rw [if_neg hterm] at hv
      by_cases hemp : (getValidMoves b player).isEmpty = true
      · rw [if_pos hemp] at hv
        exact ih b _ beta _ v h1 h2 hv
      · rw [if_neg hemp] at hv
        have hsearch : ∀ (mv : Int × Int) (lo hi r : Int), INT_MIN < lo → lo ≤ INT_MAX →
            INT_MIN < hi → hi ≤ INT_MAX →
            (match childBoard b mv player with
              | none => none
              | some child => negaScout fuel child (sub32 depth 1) lo hi (sub32 3 player))
              = some r → (lo ≤ r ∨ -36 ≤ r) ∧ (r ≤ lo ∨ r ≤ hi ∨ r ≤ 36) := by
          intro mv lo hi r g1 g2 g3 g4 hr
          cases hc : childBoard b mv player with
          | none => rw [hc] at hr; simp at hr
          | some child =>
            rw [hc] at hr
            exact negaScout_window fuel child _ lo hi _ r g1 g2 g3 g4 hr
        cases hmoves : getValidMoves b player with
        | nil => rw [hmoves] at hemp; simp at hemp
        | cons mv rest =>
          rw [hmoves, scoutLoop] at hv
          have hnb : neg32 beta = -beta := neg32_eq beta h1 h2
          have hn : neg32 INT_MIN = INT_MIN := by decide
          cases hs : scoutStep (fun move lo hi =>
              match childBoard b move player with
              | none => none
              | some child => negaScout fuel child (sub32 depth 1) lo hi (sub32 3 player))
              depth beta mv INT_MIN beta with
          | none => rw [hs] at hv; simp at hv
          | some a1 =>
            rw [hs] at hv
            simp only at hv
            have ha1 : (INT_MIN < a1 ∧ a1 ≤ INT_MAX) ∧ (a1 ≤ beta ∨ a1 ≤ 36) := by
              unfold scoutStep at hs
              simp only [hn, hnb] at hs
              cases hr : (match childBoard b mv player with
                | none => none
                | some child =>
                  negaScout fuel child (sub32 depth 1) (-beta) INT_MIN (sub32 3 player)) with
              | none => rw [hr] at hs; simp at hs
              | some r =>
                rw [hr] at hs
                simp only [true_or, if_true] at hs
                have hrb : (INT_MIN < r ∧ r ≤ INT_MAX) ∧ (-beta ≤ r ∨ -36 ≤ r) := by
                  cases hc : childBoard b mv player with
                  | none => rw [hc] at hr; simp at hr
                  | some child =>
                    rw [hc] at hr
                    exact ⟨negaScout_good fuel child _ (-beta) INT_MIN _ r
                        (by simp only [INT_MIN, INT_MAX] at *; omega)
                        (by simp only [INT_MIN, INT_MAX] at *; omega)
                        (le_refl _) (by decide) hr,
                      negaScout_low_beta fuel child _ (-beta) _ r
                        (by simp only [INT_MIN, INT_MAX] at *; omega)
                        (by simp only [INT_MIN, INT_MAX] at *; omega) hr⟩
                have hnr : neg32 r = -r := neg32_eq r hrb.1.1 hrb.1.2
                rw [hnr] at hs
                have hgt : -r > INT_MIN := by simp only [INT_MIN, INT_MAX] at *; omega
                rw [if_pos hgt] at hs
                simp only [Option.some.injEq] at hs
                subst hs
                simp only [INT_MIN, INT_MAX] at *
                omega
            by_cases hcut : a1 ≥ beta
            · rw [if_pos hcut] at hv
              simp only [Option.some.injEq] at hv
              subst hv
              exact ⟨le_of_lt ha1.1.1, ha1.2⟩
            · rw [if_neg hcut] at hv
              have hadd : add32 a1 1 = a1 + 1 := by
                unfold add32
                apply wrap32_eq <;> simp only [INT_MIN, INT_MAX] at * <;> omega
              have := scoutLoop_window _ depth beta h1 h2 hsearch rest a1 _ v ha1.1.1 ha1.1.2
                (Or.inr ⟨by omega, hadd⟩) hv
              simp only [INT_MIN, INT_MAX] at *
              omega

/-- Claim C12, as amended. For every board, player, depth `≥ 0` and window
with `INT_MIN ≤ alpha ≤ beta ≤ INT_MAX`, and every bound on the nesting of
calls above the depth, `negaScout` returns a value `v` with
`min(alpha, -36) ≤ v ≤ max(beta, 36)`: the window widened to the range of the
static evaluation. -/
theorem negaScout_value_bounds (fuel : Nat) (b : Board) (depth alpha beta player : Int)
    (hd0 : 0 ≤ depth) (hd1 : depth ≤ INT_MAX) (hfuel : depth < fuel)
    (ha : INT_MIN ≤ alpha) (hab : alpha ≤ beta) (hb : beta ≤ INT_MAX) :
    ∃ v, negaScout fuel b depth alpha beta player = some v ∧
      min alpha (-36) ≤ v ∧ v ≤ max beta 36 := by
  obtain ⟨v, hv⟩ := negaScout_some fuel b depth alpha beta player hd0 hfuel hd1
  refine ⟨v, hv, ?_⟩
  rw [min_le_iff, le_max_iff]
  rcases eq_or_lt_of_le ha with ha0 | ha0
  · subst ha0
    rcases eq_or_lt_of_le hab with hb0 | hb0
    · subst hb0
      have := negaScout_min_window fuel b depth player v hv
      exact ⟨Or.inr this.1, Or.inr this.2⟩
    · have := negaScout_open_low fuel b depth beta player v hb0 hb hv
      exact ⟨Or.inl this.1, this.2⟩
  · have := negaScout_window fuel b depth alpha beta player v ha0 (le_trans hab hb)
      (lt_of_lt_of_le ha0 hab) hb hv
    refine ⟨this.1, ?_⟩
    rcases this.2 with h | h | h
    · exact Or.inl (le_trans h hab)
    · exact Or.inl h
    · exact Or.inr h

/-- Witness for the amended C12 on `twoEmpty`, Black to move, depth 1 and
window `(-200, -100)`: the value is 33. -/
theorem negaScout_value_bounds_witness :
    (0 : Int) ≤ 1 ∧ (1 : Int) ≤ INT_MAX ∧ (1 : Int) < ((2 : Nat) : Int) ∧
    INT_MIN ≤ -200 ∧ (-200 : Int) ≤ -100 ∧ (-100 : Int) ≤ INT_MAX ∧
    negaScout 2 twoEmpty 1 (-200) (-100) BLACK = some 33 ∧
    ∃ v, negaScout 2 twoEmpty 1 (-200) (-100) BLACK = some v ∧
      min (-200) (-36) ≤ v ∧ v ≤ max (-100) 36 :=
  ⟨by decide, by decide, by decide, by decide, by decide, by decide, by decide,
    negaScout_value_bounds 2 twoEmpty 1 (-200) (-100) BLACK (by decide) (by decide) (by decide)
      (by decide) (by decide) (by decide)⟩

/-- Counterexample to C12 as stated.  On `twoEmpty` with Black to move the
search returns 32 at depth 0 for the window `(100, 200)` and 33 at depth 1 for
the window `(-200, -100)`; on the full board of scenario S4 it returns 36 at
depth 3 for the window `(100, 200)`.  None of the values lies in its window. -/
theorem negaScout_outside_window :
    (negaScout 1 twoEmpty 0 100 200 BLACK = some 32 ∧ (32 : Int) < 100) ∧
    (negaScout 2 twoEmpty 1 (-200) (-100) BLACK = some 33 ∧ (-100 : Int) < 33) ∧
    (negaScout 4 scenarioS4 3 100 200 BLACK = some 36 ∧ (36 : Int) < 100) := by
  decide

end Othello
